import Mathlib

/-!
Verification of the batched cache-aside resolution engine of the
`go-wordpress` data-access layer.

The Go sources are shallowly embedded: pure fragments become Lean
functions, the relational store becomes an explicit list of rows, the
cache becomes a total function from keys to optional values, Go's
`(value, error)` returns become pairs/`Except`, and loops whose
termination depends on data (the taxonomy closure loop, the recursive
parent-chain resolution) are given explicit fuel, with fuel exhaustion
modelling divergence.  Go `int64` is modelled as `Int` (no arithmetic
is performed on identifiers, so overflow cannot occur), and Go strings
of ASCII text as `String`.
-/

namespace GoWp

/-- One row of the joined `terms × term_taxonomy` relation, exactly the
columns scanned by `getTerms` (src/term.go): term id, name, slug,
term_group, term_taxonomy_id, taxonomy, description, parent, count.
`parent = 0` means a root term. -/
structure Term where
  id : Int
  name : String := ""
  slug : String := ""
  group : Int := 0
  taxonomyId : Int := 0
  taxonomy : String := ""
  description : String := ""
  parent : Int := 0
  count : Int := 0
  deriving DecidableEq, Repr, Inhabited

/-! ## Deduplicator (src/utils.go `dedupe`) -/

/-- Loop body of `dedupe` (src/utils.go lines 5-11): walks the id list
with its running index `n`, appending first-seen ids to `deduped` and
appending every index to the id's entry of `idMap`.  The Go
`map[int64][]int` is modelled as a total function defaulting to `[]`;
since the Go code only ever appends a position after the presence test,
a key is present in the Go map exactly when the modelled value is
nonempty, so the `m a = []` test models Go's `if _, ok := idMap[id]; !ok`. -/
def dedupeLoop : List Int → Nat → List Int × (Int → List Nat) → List Int × (Int → List Nat)
  | [], _, st => st
  | a :: rest, n, (ded, m) =>
      dedupeLoop rest (n + 1)
        (if m a = [] then ded ++ [a] else ded,
         fun x => if x = a then m x ++ [n] else m x)

/-- `dedupe` (src/utils.go lines 3-14): collapses a possibly-repeated id
list into the list of distinct ids in first-occurrence order plus a
position map back to every original index. -/
def dedupe (ids : List Int) : List Int × (Int → List Nat) :=
  dedupeLoop ids 0 ([], fun _ => [])

/-- The list of indices at which `x` occurs in `l`, in increasing order:
the reference description of a correct position map. -/
def occIdx (l : List Int) (x : Int) : List Nat :=
  (List.range l.length).filter (fun i => decide (l[i]? = some x))

theorem occIdx_nil (x : Int) : occIdx [] x = [] := rfl

theorem occIdx_cons (a : Int) (l : List Int) (x : Int) :
    occIdx (a :: l) x = (if a = x then [0] else []) ++ (occIdx l x).map (· + 1) := by
  unfold occIdx
  rw [List.length_cons, List.range_succ_eq_map, List.filter_cons]
  by_cases h : a = x
  · simp [h, List.filter_map, Function.comp_def]
  · simp [h, List.filter_map, Function.comp_def]

/-- The final position map is the starting map extended with the
occurrence indices of the remaining input, shifted by the running index. -/
theorem dedupeLoop_snd (rest : List Int) (n : Nat) (ded : List Int)
    (m : Int → List Nat) (x : Int) :
    (dedupeLoop rest n (ded, m)).2 x = m x ++ (occIdx rest x).map (· + n) := by
  induction rest generalizing n ded m with
  | nil => simp [dedupeLoop, occIdx_nil]
  | cons a t ih =>
      rw [dedupeLoop, ih, occIdx_cons]
      by_cases h : x = a
      · rw [if_pos h, if_pos h.symm]
        rw [List.map_append, List.map_map, List.append_assoc]
        simp only [List.map_cons, List.map_nil, Nat.zero_add]
        congr 2
        apply List.map_congr_left
        intro i _
        simp only [Function.comp_apply]
        omega
      · have h' : ¬ a = x := fun hc => h hc.symm
        simp only [if_neg h, if_neg h', List.nil_append, List.map_map]
        congr 1
        apply List.map_congr_left
        intro i _
        simp only [Function.comp_apply]
        omega

/-- Index of the first occurrence of `a` in `pre ++ a :: t` when `a`
does not occur in `pre`. -/
theorem indexOf_append_cons_self (pre t : List Int) (a : Int) (ha : a ∉ pre) :
    (pre ++ a :: t).indexOf a = pre.length := by
  induction pre with
  | nil => simp
  | cons p ps ih =>
      have hap : a ≠ p := fun hc => ha (by simp [hc])
      simp only [List.cons_append, List.length_cons]
      rw [List.indexOf_cons_ne _ hap.symm,
        ih (fun hc => ha (List.mem_cons_of_mem p hc))]

/-- Invariant-carrying induction for the deduplicated list: starting
from a state that correctly summarises the processed prefix `pre`, the
loop produces a list that is duplicate-free, has the same members as
`pre ++ rest`, and is ordered by first occurrence in the full input. -/
theorem dedupeLoop_fst_props (rest : List Int) (n : Nat) (ded pre full : List Int)
    (m : Int → List Nat)
    (hfull : full = pre ++ rest)
    (hm : ∀ x, m x = [] ↔ x ∉ ded)
    (hmem : ∀ x, x ∈ ded ↔ x ∈ pre)
    (hnd : ded.Nodup)
    (hpw : ded.Pairwise (fun a b => full.indexOf a < full.indexOf b)) :
    (dedupeLoop rest n (ded, m)).1.Nodup
    ∧ (∀ x, x ∈ (dedupeLoop rest n (ded, m)).1 ↔ x ∈ ded ∨ x ∈ rest)
    ∧ (dedupeLoop rest n (ded, m)).1.Pairwise
        (fun a b => full.indexOf a < full.indexOf b) := by
  induction rest generalizing n ded pre m with
  | nil =>
      refine ⟨hnd, fun x => ?_, hpw⟩
      simp [dedupeLoop]
  | cons a t ih =>
      rw [dedupeLoop]
      by_cases h : m a = []
      · have ha : a ∉ ded := (hm a).mp h
        have hapre : a ∉ pre := fun hc => ha ((hmem a).mpr hc)
        rw [if_pos h]
        have hidxa : full.indexOf a = pre.length := by
          rw [hfull]
          exact indexOf_append_cons_self pre t a hapre
        have hstep := ih (n + 1) (ded ++ [a]) (pre ++ [a])
          (fun x => if x = a then m x ++ [n] else m x)
          (by rw [hfull]; simp)
          (by
            intro x
            by_cases hx : x = a
            · show (if x = a then m x ++ [n] else m x) = [] ↔ x ∉ ded ++ [a]
              rw [if_pos hx, hx]
              constructor
              · intro hc
                exact absurd hc (by simp)
              · intro hc
                exact absurd (show a ∈ ded ++ [a] by simp) hc
            · simp only [if_neg hx, List.mem_append, List.mem_singleton]
              rw [hm x]
              constructor
              · intro hnot hc
                rcases hc with hc | hc
                · exact hnot hc
                · exact hx hc
              · intro hnot hc
                exact hnot (Or.inl hc))
          (by
            intro x
            simp only [List.mem_append, List.mem_singleton]
            rw [hmem x])
          (by
            rw [List.nodup_append]
            refine ⟨hnd, List.nodup_singleton a, ?_⟩
            intro x hx hc
            rw [List.mem_singleton] at hc
            exact ha (hc ▸ hx))
          (by
            rw [List.pairwise_append]
            refine ⟨hpw, by simp, ?_⟩
            intro b hb c hc
            rw [List.mem_singleton] at hc
            rw [hc, hidxa]
            have hbpre : b ∈ pre := (hmem b).mp hb
            have : full.indexOf b < pre.length := by
              rw [hfull]
              calc (pre ++ a :: t).indexOf b = pre.indexOf b :=
                    List.indexOf_append_of_mem hbpre
                _ < pre.length := List.indexOf_lt_length.mpr hbpre
            exact this)
        refine ⟨hstep.1, fun x => ?_, hstep.2.2⟩
        rw [hstep.2.1 x]
        simp only [List.mem_append, List.mem_singleton, List.mem_cons]
        tauto
      · have ha : a ∈ ded := by
          by_contra hc
          exact h ((hm a).mpr hc)
        rw [if_neg h]
        have hstep := ih (n + 1) ded (pre ++ [a])
          (fun x => if x = a then m x ++ [n] else m x)
          (by rw [hfull]; simp)
          (by
            intro x
            by_cases hx : x = a
            · show (if x = a then m x ++ [n] else m x) = [] ↔ x ∉ ded
              rw [if_pos hx, hx]
              constructor
              · intro hc
                exact absurd hc (by simp)
              · intro hc
                exact absurd ha hc
            · simp only [if_neg hx]
              exact hm x)
          (by
            intro x
            simp only [List.mem_append, List.mem_singleton]
            rw [hmem x]
            constructor
            · intro hx
              exact Or.inl hx
            · intro hx
              rcases hx with hx | hx
              · exact hx
              · exact hx ▸ (hmem a).mp ha)
          hnd hpw
        refine ⟨hstep.1, fun x => ?_, hstep.2.2⟩
        rw [hstep.2.1 x]
        simp only [List.mem_cons]
        constructor
        · intro hc
          rcases hc with hc | hc
          · exact Or.inl hc
          · exact Or.inr (Or.inr hc)
        · intro hc
          rcases hc with hc | hc | hc
          · exact Or.inl hc
          · exact Or.inl (hc ▸ ha)
          · exact Or.inr hc

/-- **C3.** `dedupe` is total (it is a Lean function), its position map
sends every id to exactly the list of indices at which that id occurs in
the input in original encounter order, and its first component lists each
distinct input id exactly once, ordered by first occurrence. -/
theorem dedupe_spec (ids : List Int) :
    (∀ x : Int, (dedupe ids).2 x = occIdx ids x)
    ∧ (dedupe ids).1.Nodup
    ∧ (∀ x : Int, x ∈ (dedupe ids).1 ↔ x ∈ ids)
    ∧ (dedupe ids).1.Pairwise (fun a b => ids.indexOf a < ids.indexOf b) := by
  have hfst := dedupeLoop_fst_props ids 0 [] [] ids (fun _ => [])
    (by simp) (by simp) (by simp) List.nodup_nil (List.Pairwise.nil)
  unfold dedupe
  refine ⟨fun x => ?_, hfst.1, fun x => ?_, hfst.2.2⟩
  · rw [dedupeLoop_snd]
    simp
  · rw [hfst.2.1 x]
    simp

/-! ## Positional write-back machinery

Every batch getter re-inserts each fetched record at all of its input
positions via `for _, index := range idMap[id] { ret[index] = &v }`.
`writeAll` models one such inner loop, `foldWrite` the outer loop over
fetched rows. -/

/-- Writes `v` at every listed position of `l` (Go's `ret[index] = v`;
`List.set` ignores out-of-range indices, which never occur in the
source since the map only holds valid indices). -/
def writeAll {β : Type} (l : List β) (idxs : List Nat) (v : β) : List β :=
  idxs.foldl (fun acc i => acc.set i v) l

theorem writeAll_length {β : Type} (idxs : List Nat) (l : List β) (v : β) :
    (writeAll l idxs v).length = l.length := by
  induction idxs generalizing l with
  | nil => rfl
  | cons j rest ih =>
      show (writeAll (l.set j v) rest v).length = l.length
      rw [ih, List.length_set]

theorem writeAll_get {β : Type} (idxs : List Nat) (l : List β) (v : β) (i : Nat) :
    (writeAll l idxs v)[i]? =
      if i ∈ idxs ∧ i < l.length then some v else l[i]? := by
  induction idxs generalizing l with
  | nil => simp [writeAll]
  | cons j rest ih =>
      show (writeAll (l.set j v) rest v)[i]? = _
      rw [ih, List.length_set]
      by_cases hlt : i < l.length
      · by_cases hmem : i ∈ rest
        · simp [hmem, hlt, List.mem_cons]
        · by_cases hij : i = j
          · subst hij
            simp [hmem, hlt, List.getElem?_set_eq_of_lt, List.mem_cons]
          · have hne : (l.set j v)[i]? = l[i]? :=
              List.getElem?_set_ne (fun hc => hij hc.symm)
            simp [hmem, hij, hlt, hne, List.mem_cons]
      · have h1 : (l.set j v)[i]? = none := by
          rw [List.getElem?_eq_none_iff, List.length_set]
          exact Nat.le_of_not_lt hlt
        have h2 : l[i]? = none := by
          rw [List.getElem?_eq_none_iff]
          exact Nat.le_of_not_lt hlt
        simp [hlt, h1, h2]

/-- Outer redupe loop: writes each row's value at all of that row's
positions, later rows overwriting earlier ones, exactly as the Go scan
loops do. -/
def foldWrite {ρ β : Type} (pos : ρ → List Nat) (val : ρ → Option β)
    (rows : List ρ) (acc : List (Option β)) : List (Option β) :=
  rows.foldl (fun a r => writeAll a (pos r) (val r)) acc

theorem foldWrite_length {ρ β : Type} (pos : ρ → List Nat) (val : ρ → Option β)
    (rows : List ρ) (acc : List (Option β)) :
    (foldWrite pos val rows acc).length = acc.length := by
  induction rows generalizing acc with
  | nil => rfl
  | cons r rest ih =>
      show (foldWrite pos val rest (writeAll acc (pos r) (val r))).length = _
      rw [ih, writeAll_length]

/-- Soundness: if the starting entries and every written value satisfy a
positional predicate, so do the final entries. -/
theorem foldWrite_sound {ρ β : Type} (pos : ρ → List Nat) (val : ρ → Option β)
    (P : Nat → β → Prop) (rows : List ρ) (acc : List (Option β))
    (hrows : ∀ r ∈ rows, ∀ i ∈ pos r, ∀ b, val r = some b → P i b)
    (hacc : ∀ i, i < acc.length →
      acc[i]? = some none ∨ ∃ b, acc[i]? = some (some b) ∧ P i b) :
    ∀ i, i < acc.length →
      (foldWrite pos val rows acc)[i]? = some none
      ∨ ∃ b, (foldWrite pos val rows acc)[i]? = some (some b) ∧ P i b := by
  induction rows generalizing acc with
  | nil => exact hacc
  | cons r rest ih =>
      intro i hi
      have hstep : ∀ j, j < (writeAll acc (pos r) (val r)).length →
          (writeAll acc (pos r) (val r))[j]? = some none
          ∨ ∃ b, (writeAll acc (pos r) (val r))[j]? = some (some b) ∧ P j b := by
        intro j hj
        rw [writeAll_length] at hj
        rw [writeAll_get]
        by_cases hjmem : j ∈ pos r
        · rw [if_pos ⟨hjmem, hj⟩]
          cases hv : val r with
          | none => exact Or.inl rfl
          | some b => exact Or.inr ⟨b, rfl, hrows r (by simp) j hjmem b hv⟩
        · rw [if_neg (fun hc => hjmem hc.1)]
          exact hacc j hj
      have hlen : (writeAll acc (pos r) (val r)).length = acc.length :=
        writeAll_length _ _ _
      have := ih (writeAll acc (pos r) (val r))
        (fun r' hr' => hrows r' (List.mem_cons_of_mem r hr'))
        (fun j hj => hstep j hj) i (by rw [hlen]; exact hi)
      exact this

/-- Coverage: a position that some row writes with a `some` value, or
that already holds a `some` value, still holds a `some` value at the
end (provided no row can write `none` at a position it owns). -/
theorem foldWrite_isSome {ρ β : Type} (pos : ρ → List Nat) (val : ρ → Option β)
    (rows : List ρ) (acc : List (Option β)) (i : Nat)
    (hnn : ∀ r ∈ rows, pos r = [] ∨ (val r).isSome)
    (hi : i < acc.length)
    (h : (∃ r ∈ rows, i ∈ pos r) ∨ ∃ b, acc[i]? = some (some b)) :
    ∃ b, (foldWrite pos val rows acc)[i]? = some (some b) := by
  induction rows generalizing acc with
  | nil =>
      rcases h with ⟨r, hr, _⟩ | hb
      · exact absurd hr (by simp)
      · exact hb
  | cons r rest ih =>
      have hlen : (writeAll acc (pos r) (val r)).length = acc.length :=
        writeAll_length _ _ _
      by_cases hmem : i ∈ pos r
      · have hs : (val r).isSome := by
          rcases hnn r (by simp) with hp | hv
          · rw [hp] at hmem
            exact absurd hmem (by simp)
          · exact hv
        obtain ⟨b, hb⟩ := Option.isSome_iff_exists.mp hs
        refine ih (writeAll acc (pos r) (val r))
          (fun r' hr' => hnn r' (List.mem_cons_of_mem r hr'))
          (by rw [hlen]; exact hi) (Or.inr ⟨b, ?_⟩)
        rw [writeAll_get, if_pos ⟨hmem, hi⟩, hb]
      · have hkeep : (writeAll acc (pos r) (val r))[i]? = acc[i]? := by
          rw [writeAll_get, if_neg (fun hc => hmem hc.1)]
        refine ih (writeAll acc (pos r) (val r))
          (fun r' hr' => hnn r' (List.mem_cons_of_mem r hr'))
          (by rw [hlen]; exact hi) ?_
        rcases h with ⟨r', hr', hpos⟩ | ⟨b, hb⟩
        · rcases List.mem_cons.mp hr' with hre | hre
          · exact absurd (hre ▸ hpos) hmem
          · exact Or.inl ⟨r', hre, hpos⟩
        · exact Or.inr ⟨b, by rw [hkeep]; exact hb⟩

/-- Membership in `occIdx`: exactly the in-range indices holding `x`. -/
theorem mem_occIdx (l : List Int) (x : Int) (i : Nat) :
    i ∈ occIdx l x ↔ l[i]? = some x := by
  unfold occIdx
  rw [List.mem_filter]
  constructor
  · intro h
    exact of_decide_eq_true h.2
  · intro h
    refine ⟨List.mem_range.mpr ?_, decide_eq_true h⟩
    by_contra hc
    rw [List.getElem?_eq_none_iff.mpr (Nat.le_of_not_lt hc)] at h
    cases h

/-! ## Batch getters: `getTerms` (src/term.go 76-134) and `GetTags` (src/tag.go 27-55)

The backing store is a pure list of joined term rows; `SELECT ... WHERE
t.term_id IN (ids)` returns the matching rows in store order.  DB
transport errors are out of scope (the store always answers), so the
only error the claims concern is the missing-resources check. -/

/-- Errors of the modelled fragment.  `missingResources` models the
source's `MissingResourcesError []int64` (its `Error()` renders
"wordpress: could not find ids ..."). -/
inductive GoErr where
  | missingResources (ids : List Int)
  deriving DecidableEq, Repr

/-- The rows the backing store returns for `WHERE t.term_id IN uids`,
in store order (src/term.go 83-93). -/
def termRows (store : List Term) (uids : List Int) : List Term :=
  store.filter (fun t => decide (t.id ∈ uids))

/-- The scan loop of `getTerms` (src/term.go 98-118): `ret` starts as
`make([]*Term, len(termIds))` (all nil) and each row is written at
every position `idMap` records for its id. -/
def termRet (store : List Term) (termIds : List Int) : List (Option Term) :=
  foldWrite (fun t => (dedupe termIds).2 t.id) (fun t => some t)
    (termRows store (dedupe termIds).1)
    (List.replicate termIds.length none)

/-- The missing-id collection loop of `getTerms` (src/term.go 122-127). -/
def termMre (store : List Term) (termIds : List Int) : List Int :=
  ((termRet store termIds).zip termIds).filterMap
    (fun p => if p.1.isNone then some p.2 else none)

/-- `getTerms` (src/term.go 76-134).  NOTE the modelled bug: when `mre`
is nonempty the source executes `return nil, err`, and at that point the
local `err` is nil (the query succeeded and every scan-error path has
already returned), so the function returns a nil slice AND a nil error
instead of returning `mre`; the model reproduces this as `([], none)`. -/
def getTermsGo (store : List Term) (termIds : List Int) :
    List (Option Term) × Option GoErr :=
  if termIds.length = 0 then ([], none)
  else if 0 < (termMre store termIds).length then ([], none)
  else (termRet store termIds, none)

/-- A WordPress tag: an embedded term plus the derived flat link. -/
structure Tag where
  term : Term
  link : String
  deriving DecidableEq, Repr

/-- The hydration loop of `GetTags` (src/tag.go 43-52): each fetched
term gets link `"/tag/" + slug` and is written at every original
position.  A nil slice entry is skipped (it never occurs when the
inner `getTerms` call reports no error, see `getTermsGo`). -/
def tagFold (dd2 : Int → List Nat) :
    List (Option Term) → List (Option Tag) → List (Option Tag)
  | [], ret => ret
  | none :: rest, ret => tagFold dd2 rest ret
  | some t :: rest, ret =>
      tagFold dd2 rest
        (writeAll ret (dd2 t.id) (some { term := t, link := "/tag/" ++ t.slug }))

/-- `GetTags` (src/tag.go 27-55): dedupes, delegates to `getTerms` on
the unique ids, then re-inserts each tag at every original position. -/
def GetTags (store : List Term) (tagIds : List Int) :
    List (Option Tag) × Option GoErr :=
  if tagIds.length = 0 then ([], none)
  else
    (tagFold (dedupe tagIds).2 (getTermsGo store (dedupe tagIds).1).1
      (List.replicate tagIds.length none), none)

theorem tagFold_eq_foldWrite (dd2 : Int → List Nat)
    (terms : List (Option Term)) (ret : List (Option Tag)) :
    tagFold dd2 terms ret = foldWrite
      (fun ot => match ot with | none => [] | some t => dd2 t.id)
      (fun ot => match ot with
        | none => none
        | some t => some { term := t, link := "/tag/" ++ t.slug })
      terms ret := by
  induction terms generalizing ret with
  | nil => rfl
  | cons ot rest ih =>
      cases ot with
      | none => exact ih ret
      | some t => exact ih _

/-- Positions and members of the deduplicated id list, packaged from
`dedupe_spec` for reuse. -/
theorem dedupe_pos (L : List Int) (x : Int) : (dedupe L).2 x = occIdx L x :=
  (dedupe_spec L).1 x

theorem dedupe_mem (L : List Int) (x : Int) : x ∈ (dedupe L).1 ↔ x ∈ L :=
  (dedupe_spec L).2.2.1 x

theorem termRet_length (store : List Term) (L : List Int) :
    (termRet store L).length = L.length := by
  unfold termRet
  rw [foldWrite_length, List.length_replicate]

/-- Every position of a fully-resolvable request ends up holding the
matching record. -/
theorem termRet_entry (store : List Term) (L : List Int)
    (hall : ∀ x ∈ L, ∃ t ∈ store, t.id = x) :
    ∀ i, i < L.length → ∃ t, (termRet store L)[i]? = some (some t)
      ∧ L[i]? = some t.id ∧ t ∈ store := by
  unfold termRet
  intro i hi
  have hsound := foldWrite_sound (fun t => (dedupe L).2 t.id) (fun t => some t)
    (fun j t => L[j]? = some t.id ∧ t ∈ store)
    (termRows store (dedupe L).1) (List.replicate L.length none)
    (by
      intro r hr j hj b hb
      cases hb
      have hj' : j ∈ (dedupe L).2 r.id := hj
      rw [dedupe_pos] at hj'
      exact ⟨(mem_occIdx L r.id j).mp hj', List.mem_of_mem_filter hr⟩)
    (by
      intro j hj
      rw [List.length_replicate] at hj
      left
      simp [List.getElem?_replicate, hj])
    i (by rw [List.length_replicate]; exact hi)
  have hx : L[i]? = some L[i] := List.getElem?_eq_getElem hi
  obtain ⟨t, ht, htid⟩ := hall L[i] (List.getElem_mem hi)
  have hrowmem : t ∈ termRows store (dedupe L).1 := by
    refine List.mem_filter.mpr ⟨ht, decide_eq_true ?_⟩
    rw [dedupe_mem, htid]
    exact List.getElem_mem hi
  have hposmem : i ∈ (dedupe L).2 t.id := by
    rw [dedupe_pos, mem_occIdx, hx, htid]
  have hcover := foldWrite_isSome (fun t => (dedupe L).2 t.id) (fun t => some t)
    (termRows store (dedupe L).1) (List.replicate L.length none) i
    (fun r _ => Or.inr rfl)
    (by rw [List.length_replicate]; exact hi)
    (Or.inl ⟨t, hrowmem, hposmem⟩)
  obtain ⟨b, hb⟩ := hcover
  rcases hsound with hnone | ⟨b', hb', hP⟩
  · rw [hb] at hnone
    cases hnone
  · exact ⟨b', hb', hP.1, hP.2⟩

theorem termMre_eq_nil (store : List Term) (L : List Int)
    (hall : ∀ x ∈ L, ∃ t ∈ store, t.id = x) :
    termMre store L = [] := by
  unfold termMre
  rw [List.filterMap_eq_nil_iff]
  intro p hp
  have hmem : p.1 ∈ termRet store L := (List.of_mem_zip hp).1
  obtain ⟨i, hi⟩ := List.mem_iff_getElem?.mp hmem
  have hilt : i < L.length := by
    by_contra hc
    rw [List.getElem?_eq_none_iff.mpr (by rw [termRet_length]; exact Nat.le_of_not_lt hc)] at hi
    cases hi
  obtain ⟨t, ht, _, _⟩ := termRet_entry store L hall i hilt
  rw [ht] at hi
  have hp1 : p.1 = some t := (Option.some.inj hi).symm
  rw [hp1]
  rfl

/-- Characterisation of `getTermsGo` on fully-resolvable requests. -/
theorem getTermsGo_ok (store : List Term) (L : List Int)
    (hall : ∀ x ∈ L, ∃ t ∈ store, t.id = x) :
    (getTermsGo store L).2 = none
    ∧ (getTermsGo store L).1.length = L.length
    ∧ ∀ i, i < L.length → ∃ t, (getTermsGo store L).1[i]? = some (some t)
        ∧ L[i]? = some t.id ∧ t ∈ store := by
  unfold getTermsGo
  by_cases h0 : L.length = 0
  · rw [if_pos h0]
    refine ⟨rfl, h0.symm, ?_⟩
    intro i hi
    rw [h0] at hi
    cases hi
  · rw [if_neg h0, termMre_eq_nil store L hall]
    rw [if_neg (by simp : ¬ 0 < ([] : List Int).length)]
    exact ⟨rfl, termRet_length store L, termRet_entry store L hall⟩

/-- **C1 (code bug).** Requesting ids `{1, 404}` from a store that only
holds id 1: `getTerms` returns a nil slice together with a nil error —
the outcome the claim explicitly forbids — instead of the
missing-resources error naming 404 that the source's own
`MissingResourcesError` machinery was written to produce (it builds
`mre` and then returns the nil `err` variable instead). -/
theorem getTerms_missing_nil_nil :
    getTermsGo [{ id := 1 }] [1, 404] = ([], none)
    ∧ getTermsGo [{ id := 1 }] [1, 404]
        ≠ ([], some (GoErr.missingResources [404])) := by
  constructor
  · rfl
  · intro hc
    cases hc

/-- **C2 counterexample.** With the same store and ids `{1, 404}`,
`GetTags` reports no error, yet its first entry is nil rather than the
tag with id 1 — the call is "successful" but neither positionally
aligned nor of faithful content, refuting the claim as stated (the
whole batch was dropped by the `getTerms` slip of C1). -/
theorem getTags_not_aligned_on_missing :
    (GetTags [{ id := 1 }] [1, 404]).2 = none
    ∧ (GetTags [{ id := 1 }] [1, 404]).1[0]? = some none := ⟨rfl, rfl⟩

/-- **C2 (amended).** Whenever every requested id is present in the
backing store, `getTerms` and `GetTags` return a nil error and a slice
of exactly `len(L)` entries whose `i`-th entry carries the record with
id `L[i]` (duplicates included): the internal deduplication never
changes observable output length or order. -/
theorem getByIds_aligned (store : List Term) (L : List Int)
    (hall : ∀ x ∈ L, ∃ t ∈ store, t.id = x) :
    (getTermsGo store L).2 = none
    ∧ (getTermsGo store L).1.length = L.length
    ∧ (∀ i, i < L.length → ∃ t, (getTermsGo store L).1[i]? = some (some t)
        ∧ L[i]? = some t.id ∧ t ∈ store)
    ∧ (GetTags store L).2 = none
    ∧ (GetTags store L).1.length = L.length
    ∧ (∀ i, i < L.length → ∃ g, (GetTags store L).1[i]? = some (some g)
        ∧ L[i]? = some g.term.id ∧ g.term ∈ store
        ∧ g.link = "/tag/" ++ g.term.slug) := by
  obtain ⟨hterr, htlen, htent⟩ := getTermsGo_ok store L hall
  have hall' : ∀ x ∈ (dedupe L).1, ∃ t ∈ store, t.id = x := by
    intro x hx
    exact hall x ((dedupe_mem L x).mp hx)
  obtain ⟨huerr, hulen, huent⟩ := getTermsGo_ok store (dedupe L).1 hall'
  refine ⟨hterr, htlen, htent, ?_, ?_, ?_⟩
  · unfold GetTags
    by_cases h0 : L.length = 0
    · rw [if_pos h0]
    · rw [if_neg h0]
  · unfold GetTags
    by_cases h0 : L.length = 0
    · rw [if_pos h0]
      exact h0.symm
    · rw [if_neg h0]
      show (tagFold _ _ _).length = _
      rw [tagFold_eq_foldWrite, foldWrite_length, List.length_replicate]
  · intro i hi
    have h0 : ¬ L.length = 0 := by omega
    unfold GetTags
    rw [if_neg h0]
    show ∃ g, (tagFold _ _ _)[i]? = some (some g) ∧ _
    rw [tagFold_eq_foldWrite]
    set terms := (getTermsGo store (dedupe L).1).1 with hterms
    have hsound := foldWrite_sound
      (fun ot => match ot with | none => [] | some t => (dedupe L).2 t.id)
      (fun ot => match ot with
        | none => none
        | some t => some { term := t, link := "/tag/" ++ t.slug })
      (fun j (g : Tag) => L[j]? = some g.term.id ∧ g.term ∈ store
        ∧ g.link = "/tag/" ++ g.term.slug)
      terms (List.replicate L.length none)
      (by
        intro r hr j hj b hb
        cases r with
        | none => cases hb
        | some t =>
            cases hb
            refine ⟨?_, ?_, rfl⟩
            · have hj' : j ∈ (dedupe L).2 t.id := hj
              rw [dedupe_pos] at hj'
              exact (mem_occIdx L t.id j).mp hj'
            · obtain ⟨k, hk⟩ := List.mem_iff_getElem?.mp hr
              have hklt : k < (dedupe L).1.length := by
                by_contra hc
                rw [List.getElem?_eq_none_iff.mpr
                  (by rw [hulen]; exact Nat.le_of_not_lt hc)] at hk
                cases hk
              obtain ⟨t', ht', _, hstore'⟩ := huent k hklt
              rw [ht'] at hk
              have ht2 : t = t' := by
                have hin := Option.some.inj hk
                exact (Option.some.inj hin).symm
              rw [ht2]
              exact hstore')
      (by
        intro j hj
        rw [List.length_replicate] at hj
        left
        simp [List.getElem?_replicate, hj])
      i (by rw [List.length_replicate]; exact hi)
    have hx : L[i]? = some L[i] := List.getElem?_eq_getElem hi
    have hxd : L[i] ∈ (dedupe L).1 := (dedupe_mem L L[i]).mpr (List.getElem_mem hi)
    obtain ⟨k, hk⟩ := List.mem_iff_getElem?.mp hxd
    have hklt : k < (dedupe L).1.length := by
      by_contra hc
      rw [List.getElem?_eq_none_iff.mpr (Nat.le_of_not_lt hc)] at hk
      cases hk
    obtain ⟨t, ht, hkid, hstore⟩ := huent k hklt
    have htid : t.id = L[i] := by
      rw [hk] at hkid
      exact (Option.some.inj hkid).symm
    have hrmem : (some t : Option Term) ∈ terms :=
      List.mem_iff_getElem?.mpr ⟨k, ht⟩
    have hcover := foldWrite_isSome
      (fun ot => match ot with | none => [] | some t => (dedupe L).2 t.id)
      (fun ot => match ot with
        | none => (none : Option Tag)
        | some t => some (Tag.mk t ("/tag/" ++ t.slug)))
      terms (List.replicate L.length none) i
      (by
        intro r _
        cases r with
        | none => exact Or.inl rfl
        | some t => exact Or.inr rfl)
      (by rw [List.length_replicate]; exact hi)
      (Or.inl ⟨some t, hrmem, by
        show i ∈ (dedupe L).2 t.id
        rw [dedupe_pos]
        exact (mem_occIdx L t.id i).mpr (by rw [hx, htid])⟩)
    obtain ⟨g, hg⟩ := hcover
    rcases hsound with hnone | ⟨g', hg', hP⟩
    · rw [hg] at hnone
      cases hnone
    · exact ⟨g', hg', hP.1, hP.2.1, hP.2.2⟩

/-- Witness for C2 (amended): a store knowing ids 1 and 2, requested
with duplicates as `[1, 2, 1]`, satisfies the presence hypothesis and
therefore the alignment conclusion. -/
theorem getByIds_aligned_witness :
    (∀ x ∈ [(1 : Int), 2, 1], ∃ t ∈ [Term.mk 1 "" "aa" 0 0 "" "" 0 0,
        Term.mk 2 "" "bb" 0 0 "" "" 0 0], t.id = x)
    ∧ ((getTermsGo [Term.mk 1 "" "aa" 0 0 "" "" 0 0,
        Term.mk 2 "" "bb" 0 0 "" "" 0 0] [1, 2, 1]).2 = none
      ∧ (getTermsGo [Term.mk 1 "" "aa" 0 0 "" "" 0 0,
        Term.mk 2 "" "bb" 0 0 "" "" 0 0] [1, 2, 1]).1.length = [(1 : Int), 2, 1].length
      ∧ (∀ i, i < [(1 : Int), 2, 1].length →
          ∃ t, (getTermsGo [Term.mk 1 "" "aa" 0 0 "" "" 0 0,
            Term.mk 2 "" "bb" 0 0 "" "" 0 0] [1, 2, 1]).1[i]? = some (some t)
          ∧ [(1 : Int), 2, 1][i]? = some t.id
          ∧ t ∈ [Term.mk 1 "" "aa" 0 0 "" "" 0 0, Term.mk 2 "" "bb" 0 0 "" "" 0 0])
      ∧ (GetTags [Term.mk 1 "" "aa" 0 0 "" "" 0 0,
          Term.mk 2 "" "bb" 0 0 "" "" 0 0] [1, 2, 1]).2 = none
      ∧ (GetTags [Term.mk 1 "" "aa" 0 0 "" "" 0 0,
          Term.mk 2 "" "bb" 0 0 "" "" 0 0] [1, 2, 1]).1.length = [(1 : Int), 2, 1].length
      ∧ (∀ i, i < [(1 : Int), 2, 1].length →
          ∃ g, (GetTags [Term.mk 1 "" "aa" 0 0 "" "" 0 0,
            Term.mk 2 "" "bb" 0 0 "" "" 0 0] [1, 2, 1]).1[i]? = some (some g)
          ∧ [(1 : Int), 2, 1][i]? = some g.term.id
          ∧ g.term ∈ [Term.mk 1 "" "aa" 0 0 "" "" 0 0, Term.mk 2 "" "bb" 0 0 "" "" 0 0]
          ∧ g.link = "/tag/" ++ g.term.slug)) :=
  ⟨by decide, getByIds_aligned _ _ (by decide)⟩

/-! ## Taxonomy closure: `Category.GetChildrenIds` (src/unnamed/part_000, 54-88)

The loop queries `SELECT term_id FROM term_taxonomy WHERE parent IN
(frontier)` and repeats with the returned children as the new frontier
until a query returns nothing.  Its termination depends on the data, so
the embedding takes fuel; `none` models the divergence the Go loop
would exhibit on cyclic parent data. -/

/-- One closure query: ids of the rows whose parent lies in the
frontier, in store order. -/
def childrenOf (store : List Term) (ids : List Int) : List Int :=
  (store.filter (fun t => decide (t.parent ∈ ids))).map (fun t => t.id)

/-- The `for len(ids) > 0` loop (part_000 lines 61-85): `ret` is the
accumulated id list, the third argument the current frontier. -/
def gciLoop (store : List Term) : Nat → List Int → List Int → Option (List Int)
  | _, ret, [] => some ret
  | 0, _, _ :: _ => none
  | fuel + 1, ret, a :: rest =>
      gciLoop store fuel (ret ++ childrenOf store (a :: rest))
        (childrenOf store (a :: rest))

/-- `Category.GetChildrenIds`: starts from `ret = ids = {cat.Id}`.  In a
store of `n` rows an acyclic loop runs at most `n + 1` times (each
nonempty level consumes at least one distinct row), so this fuel is
exact; `iterC_terminates` proves it suffices. -/
def GetChildrenIds (store : List Term) (rootId : Int) : Option (List Int) :=
  gciLoop store (store.length + 1) [rootId] [rootId]

/-- `k`-fold frontier expansion. -/
def iterC (store : List Term) : Nat → List Int → List Int
  | 0, ids => ids
  | k + 1, ids => iterC store k (childrenOf store ids)

/-- Concatenation of levels `1..m` of the expansion, mirroring what the
loop appends to `ret`. -/
def levels (store : List Term) : Nat → List Int → List Int
  | 0, _ => []
  | m + 1, ids => childrenOf store ids ++ levels store m (childrenOf store ids)

/-- Reflexive-transitive descendant relation generated by the store's
parent rows: the set the claim says the closure must return. -/
inductive Reach (store : List Term) (root : Int) : Int → Prop where
  | refl : Reach store root root
  | step {p : Int} {t : Term} : Reach store root p → t ∈ store →
      t.parent = p → Reach store root t.id

theorem mem_childrenOf (store : List Term) (ids : List Int) (x : Int) :
    x ∈ childrenOf store ids ↔ ∃ t, t ∈ store ∧ t.parent ∈ ids ∧ t.id = x := by
  unfold childrenOf
  rw [List.mem_map]
  constructor
  · rintro ⟨t, htf, hx⟩
    have h := List.mem_filter.mp htf
    exact ⟨t, h.1, of_decide_eq_true h.2, hx⟩
  · rintro ⟨t, ht, hp, hx⟩
    exact ⟨t, List.mem_filter.mpr ⟨ht, decide_eq_true hp⟩, hx⟩

theorem childrenOf_nil (store : List Term) : childrenOf store [] = [] := by
  simp [childrenOf]

theorem iterC_nil (store : List Term) (k : Nat) : iterC store k [] = [] := by
  induction k with
  | zero => rfl
  | succ k ih =>
      show iterC store k (childrenOf store []) = []
      rw [childrenOf_nil]
      exact ih

theorem iterC_succ_comm (store : List Term) (k : Nat) (ids : List Int) :
    iterC store (k + 1) ids = childrenOf store (iterC store k ids) := by
  induction k generalizing ids with
  | zero => rfl
  | succ k ih =>
      show iterC store (k + 1) (childrenOf store ids) = _
      rw [ih]
      rfl

theorem iterC_add (store : List Term) (a b : Nat) (ids : List Int) :
    iterC store (a + b) ids = iterC store b (iterC store a ids) := by
  induction a generalizing ids with
  | zero =>
      rw [Nat.zero_add]
      rfl
  | succ a ih =>
      have h1 : a + 1 + b = (a + b) + 1 := by omega
      rw [h1]
      show iterC store (a + b) (childrenOf store ids) = _
      rw [ih]
      rfl

/-- Once a frontier is empty every later frontier is empty. -/
theorem iterC_stable (store : List Term) (m k : Nat) (ids : List Int)
    (hm : iterC store m ids = []) (hk : m ≤ k) : iterC store k ids = [] := by
  have h1 : k = m + (k - m) := by omega
  rw [h1, iterC_add, hm, iterC_nil]

/-- Loop output characterisation: a successful run returns the start
accumulator followed by the levels up to the first empty frontier. -/
theorem gciLoop_some (store : List Term) :
    ∀ (fuel : Nat) (ret ids l : List Int), gciLoop store fuel ret ids = some l →
      ∃ m, m ≤ fuel ∧ iterC store m ids = [] ∧ l = ret ++ levels store m ids := by
  intro fuel
  induction fuel with
  | zero =>
      intro ret ids l h
      cases ids with
      | nil =>
          refine ⟨0, Nat.le_refl 0, rfl, ?_⟩
          cases h
          rw [levels, List.append_nil]
      | cons a rest => cases h
  | succ fuel ih =>
      intro ret ids l h
      cases ids with
      | nil =>
          refine ⟨0, Nat.zero_le _, rfl, ?_⟩
          cases h
          rw [levels, List.append_nil]
      | cons a rest =>
          obtain ⟨m, hm, hiter, hl⟩ := ih _ _ l h
          refine ⟨m + 1, by omega, ?_, ?_⟩
          · show iterC store m (childrenOf store (a :: rest)) = []
            exact hiter
          · rw [hl, levels, List.append_assoc]

/-- Fuel sufficiency: if some level at or below `fuel` is empty, the
loop halts within `fuel` iterations. -/
theorem gciLoop_total (store : List Term) :
    ∀ (fuel m : Nat) (ret ids : List Int), m ≤ fuel → iterC store m ids = [] →
      ∃ l, gciLoop store fuel ret ids = some l := by
  intro fuel
  induction fuel with
  | zero =>
      intro m ret ids hm hit
      cases ids with
      | nil => exact ⟨ret, rfl⟩
      | cons a rest =>
          have hm0 : m = 0 := by omega
          rw [hm0] at hit
          cases hit
  | succ fuel ih =>
      intro m ret ids hm hit
      cases ids with
      | nil => exact ⟨ret, rfl⟩
      | cons a rest =>
          cases m with
          | zero => cases hit
          | succ m =>
              obtain ⟨l, hl⟩ := ih m (ret ++ childrenOf store (a :: rest))
                (childrenOf store (a :: rest)) (by omega) hit
              exact ⟨l, hl⟩

section ClosureDepth

variable (store : List Term) (dep : Int → Nat)

/-- Children of a depth-`d` frontier all have depth `d + 1`. -/
theorem childrenOf_depth
    (hdep : ∀ t ∈ store, dep t.id = dep t.parent + 1)
    (ids : List Int) (d : Nat) (hids : ∀ y ∈ ids, dep y = d) :
    ∀ x ∈ childrenOf store ids, dep x = d + 1 := by
  intro x hx
  obtain ⟨t, ht, hp, hid⟩ := (mem_childrenOf store ids x).mp hx
  rw [← hid, hdep t ht, hids t.parent hp]

/-- Every member of the `k`-th frontier of a depth-`d` start has depth
`d + k`. -/
theorem iterC_depth
    (hdep : ∀ t ∈ store, dep t.id = dep t.parent + 1) :
    ∀ (k : Nat) (ids : List Int) (d : Nat), (∀ y ∈ ids, dep y = d) →
      ∀ x ∈ iterC store k ids, dep x = d + k := by
  intro k
  induction k with
  | zero =>
      intro ids d hids x hx
      have h := hids x hx
      omega
  | succ k ih =>
      intro ids d hids x hx
      have h := ih (childrenOf store ids) (d + 1)
        (childrenOf_depth store dep hdep ids d hids) x hx
      omega

/-- Members of any frontier after the start are ids of store rows. -/
theorem iterC_mem_store :
    ∀ (k : Nat) (ids : List Int) (x : Int), x ∈ iterC store (k + 1) ids →
      ∃ t ∈ store, t.id = x := by
  intro k
  induction k with
  | zero =>
      intro ids x hx
      have hx' : x ∈ childrenOf store ids := hx
      obtain ⟨t, ht, _, hid⟩ := (mem_childrenOf store ids x).mp hx'
      exact ⟨t, ht, hid⟩
  | succ k ih =>
      intro ids x hx
      exact ih (childrenOf store ids) x hx

/-- Termination of the closure loop on acyclic (depth-graded) data:
some frontier within `store.length + 1` steps is empty. -/
theorem iterC_terminates (root : Int)
    (hdep : ∀ t ∈ store, dep t.id = dep t.parent + 1) :
    ∃ m, m ≤ store.length + 1 ∧ iterC store m [root] = [] := by
  by_contra hc
  push_neg at hc
  have hmem : ∀ k, 1 ≤ k → k ≤ store.length + 1 →
      dep root + k ∈ store.map (fun t => dep t.id) := by
    intro k hk1 hk2
    obtain ⟨x, hx⟩ := List.exists_mem_of_ne_nil _ (hc k hk2)
    have hdepx : dep x = dep root + k :=
      iterC_depth store dep hdep k [root] (dep root)
        (by intro y hy; rw [List.mem_singleton] at hy; rw [hy]) x hx
    cases k with
    | zero => omega
    | succ k =>
        obtain ⟨t, ht, htid⟩ := iterC_mem_store store k [root] x hx
        exact List.mem_map.mpr ⟨t, ht, by rw [htid, hdepx]⟩
  have hsub : Finset.Icc (dep root + 1) (dep root + (store.length + 1)) ⊆
      (store.map (fun t => dep t.id)).toFinset := by
    intro d hd
    rw [Finset.mem_Icc] at hd
    rw [List.mem_toFinset]
    have hd2 : d = dep root + (d - dep root) := by omega
    rw [hd2]
    exact hmem (d - dep root) (by omega) (by omega)
  have hcard := Finset.card_le_card hsub
  rw [Nat.card_Icc] at hcard
  have hle := List.toFinset_card_le (store.map (fun t => dep t.id))
  rw [List.length_map] at hle
  omega

end ClosureDepth

/-- Levels collect exactly the nonzero frontiers. -/
theorem mem_levels (store : List Term) :
    ∀ (m : Nat) (ids : List Int) (x : Int),
      x ∈ levels store m ids ↔ ∃ k, 1 ≤ k ∧ k ≤ m ∧ x ∈ iterC store k ids := by
  intro m
  induction m with
  | zero =>
      intro ids x
      constructor
      · intro h; cases h
      · rintro ⟨k, hk1, hk2, _⟩; omega
  | succ m ih =>
      intro ids x
      rw [levels, List.mem_append, ih]
      constructor
      · rintro (hc | ⟨k, hk1, hk2, hk⟩)
        · exact ⟨1, Nat.le_refl 1, by omega, hc⟩
        · exact ⟨k + 1, by omega, by omega, hk⟩
      · rintro ⟨k, hk1, hk2, hk⟩
        cases k with
        | zero => omega
        | succ k =>
            cases k with
            | zero => exact Or.inl hk
            | succ k => exact Or.inr ⟨k + 1, by omega, by omega, hk⟩

/-- Forward inclusion: every collected id is a descendant. -/
theorem iterC_reach (store : List Term) (root : Int) :
    ∀ (k : Nat) (x : Int), x ∈ iterC store k [root] → Reach store root x := by
  intro k
  induction k with
  | zero =>
      intro x hx
      have hx' : x ∈ [root] := hx
      rw [List.mem_singleton] at hx'
      rw [hx']
      exact Reach.refl
  | succ k ih =>
      intro x hx
      rw [iterC_succ_comm] at hx
      obtain ⟨t, ht, hp, hid⟩ := (mem_childrenOf store _ x).mp hx
      rw [← hid]
      exact Reach.step (ih t.parent hp) ht rfl

/-- Backward inclusion: every descendant appears in some frontier. -/
theorem reach_iterC (store : List Term) (root : Int) (x : Int)
    (h : Reach store root x) : ∃ k, x ∈ iterC store k [root] := by
  induction h with
  | refl => exact ⟨0, List.mem_singleton.mpr rfl⟩
  | step hre ht hpar ih =>
      obtain ⟨k, hk⟩ := ih
      refine ⟨k + 1, ?_⟩
      rw [iterC_succ_comm]
      refine (mem_childrenOf store _ _).mpr ⟨_, ht, ?_, rfl⟩
      rw [hpar]
      exact hk

/-- Duplicate-freedom of the collected levels on tree-shaped data. -/
theorem levels_nodup (store : List Term) (dep : Int → Nat)
    (hdep : ∀ t ∈ store, dep t.id = dep t.parent + 1)
    (hnd : (store.map (fun t => t.id)).Nodup) :
    ∀ (m : Nat) (ids : List Int) (d : Nat), (∀ y ∈ ids, dep y = d) →
      (levels store m ids).Nodup ∧ ∀ x ∈ levels store m ids, d < dep x := by
  intro m
  induction m with
  | zero =>
      intro ids d _
      exact ⟨List.nodup_nil, fun x hx => absurd hx (by simp [levels])⟩
  | succ m ih =>
      intro ids d hids
      have hcd := childrenOf_depth store dep hdep ids d hids
      obtain ⟨ihnd, ihgt⟩ := ih (childrenOf store ids) (d + 1) hcd
      have hchild : (childrenOf store ids).Nodup := by
        unfold childrenOf
        exact List.Nodup.sublist
          (List.Sublist.map (fun t => t.id) (List.filter_sublist store)) hnd
      constructor
      · rw [levels, List.nodup_append]
        refine ⟨hchild, ihnd, ?_⟩
        intro x hx hx2
        have h1 := hcd x hx
        have h2 := ihgt x hx2
        omega
      · intro x hx
        rw [levels, List.mem_append] at hx
        rcases hx with hx | hx
        · have := hcd x hx
          omega
        · have := ihgt x hx
          omega

/-- **C5.** On an acyclic, tree-shaped taxonomy (each row one level
deeper than its parent, no two rows sharing a term id),
`Category.GetChildrenIds` terminates and returns the root id plus
exactly the transitive descendants of the root, without duplicates;
in particular a root with no children yields exactly `[root]`. -/
theorem getChildrenIds_spec (store : List Term) (root : Int) (dep : Int → Nat)
    (hdep : ∀ t ∈ store, dep t.id = dep t.parent + 1)
    (hnd : (store.map (fun t => t.id)).Nodup) :
    ∃ l, GetChildrenIds store root = some l
      ∧ (∀ x, x ∈ l ↔ Reach store root x)
      ∧ l.Nodup
      ∧ root ∈ l
      ∧ (childrenOf store [root] = [] → l = [root]) := by
  obtain ⟨m0, hm0, hit0⟩ := iterC_terminates store dep root hdep
  obtain ⟨l, hl⟩ := gciLoop_total store (store.length + 1) m0 [root] [root] hm0 hit0
  obtain ⟨m, hm, hit, hform⟩ := gciLoop_some store _ _ _ _ hl
  have hroot : ∀ y ∈ [root], dep y = dep root := by
    intro y hy
    rw [List.mem_singleton] at hy
    rw [hy]
  refine ⟨l, hl, ?_, ?_, ?_, ?_⟩
  · intro x
    rw [hform]
    constructor
    · intro hx
      rw [List.mem_append] at hx
      rcases hx with hx | hx
      · rw [List.mem_singleton] at hx
        rw [hx]
        exact Reach.refl
      · obtain ⟨k, _, _, hk⟩ := (mem_levels store m [root] x).mp hx
        exact iterC_reach store root k x hk
    · intro hx
      obtain ⟨k, hk⟩ := reach_iterC store root x hx
      rw [List.mem_append]
      cases k with
      | zero => exact Or.inl hk
      | succ k =>
          right
          rw [mem_levels store m [root] x]
          refine ⟨k + 1, by omega, ?_, hk⟩
          by_contra hgt
          have : iterC store (k + 1) [root] = [] :=
            iterC_stable store m (k + 1) [root] hit (by omega)
          rw [this] at hk
          cases hk
  · rw [hform]
    obtain ⟨hlnd, hlgt⟩ := levels_nodup store dep hdep hnd m [root] (dep root) hroot
    have hrn : root ∉ levels store m [root] := by
      intro hc
      have := hlgt root hc
      omega
    show (root :: levels store m [root]).Nodup
    exact List.nodup_cons.mpr ⟨hrn, hlnd⟩
  · rw [hform]
    exact List.mem_append.mpr (Or.inl (List.mem_singleton.mpr rfl))
  · intro hnil
    rw [hform]
    have hlve : ∀ j, levels store j ([] : List Int) = [] := by
      intro j
      induction j with
      | zero => rfl
      | succ j ihj =>
          rw [levels, childrenOf_nil, ihj, List.append_nil]
    have hlv : levels store m [root] = [] := by
      cases m with
      | zero => rfl
      | succ m =>
          rw [levels, hnil, hlve, List.append_nil]
    rw [hlv, List.append_nil]

/-- A concrete tree-shaped store: terms 2 and 3 under root 1, term 4
under 2. -/
def closureStoreW : List Term :=
  [{ id := 2, parent := 1 }, { id := 3, parent := 1 }, { id := 4, parent := 2 }]

/-- A depth grading for `closureStoreW`. -/
def closureDepW : Int → Nat :=
  fun x => if x = 1 then 0 else if x = 4 then 2 else 1

/-- Witness for C5: the hypotheses hold for the concrete tree and the
closure of root 1 is defined (and evaluates to `[1, 2, 3, 4]`). -/
theorem getChildrenIds_spec_witness :
    ((∀ t ∈ closureStoreW, closureDepW t.id = closureDepW t.parent + 1)
      ∧ (closureStoreW.map (fun t => t.id)).Nodup
      ∧ GetChildrenIds closureStoreW 1 = some [1, 2, 3, 4])
    ∧ ∃ l, GetChildrenIds closureStoreW 1 = some l
        ∧ (∀ x, x ∈ l ↔ Reach closureStoreW 1 x)
        ∧ l.Nodup
        ∧ (1 : Int) ∈ l
        ∧ (childrenOf closureStoreW [1] = [] → l = [1]) :=
  ⟨⟨by decide, by decide, by decide⟩,
    getChildrenIds_spec closureStoreW 1 closureDepW (by decide) (by decide)⟩

/-! ## Category hydration: `GetCategories` (src/unnamed/part_000, 118-177)

`GetCategories` dedupes, fetches the underlying terms, and derives each
category's `Link`: roots get `"/category/" + slug`, children get the
parent's link (obtained by recursively calling `GetCategories` on the
parent id) plus `"/" + slug`.  The recursion has no depth guard in the
source, so the model takes fuel, `CatErr.diverge` standing for the
infinite recursion a cyclic parent chain would cause.  The source
resolves parents in goroutines and joins on a channel; the model
resolves them in loop order, which is one admissible schedule and
made deterministic here (the claims under verification concern the
success path, whose result does not depend on the schedule). -/

/-- A WordPress category: an embedded term plus the derived
parent-chain link. -/
structure Category where
  term : Term
  link : String
  deriving DecidableEq, Repr

/-- Failure modes of `GetCategories` in the pure model. -/
inductive CatErr where
  /-- Fuel ran out: models the unbounded recursion on cyclic data. -/
  | diverge
  /-- Models `"failed to get parent category for %d: %d\n%v"`. -/
  | parentFailed (childId parentId : Int) (inner : CatErr)
  /-- Models `"parent category for %d not found: %d"`. -/
  | parentNotFound (childId parentId : Int)
  /-- Models the nil-pointer dereference of `parents[0].Link` when the
  parent id is unknown to the store (`GetCategories` then returns a
  slice holding one nil entry, see `getTermsGo`). -/
  | nilParent
  deriving DecidableEq, Repr

/-- The hydration loop of `GetCategories` (part_000 lines 139-168),
with the recursive parent fetch abstracted as `recurse`. -/
def catLoop (recurse : Int → Except CatErr (List (Option Category)))
    (idMap : Int → List Nat) :
    List (Option Term) → List (Option Category) →
      Except CatErr (List (Option Category))
  | [], ret => .ok ret
  | none :: rest, ret => catLoop recurse idMap rest ret
  | some t :: rest, ret =>
      if 0 < t.parent then
        match recurse t.parent with
        | .error e => .error (.parentFailed t.id t.parent e)
        | .ok parents =>
            if parents.length = 0 then .error (.parentNotFound t.id t.parent)
            else
              match parents.head? with
              | some (some p) =>
                  catLoop recurse idMap rest
                    (writeAll ret (idMap t.id) (some ⟨t, p.link ++ "/" ++ t.slug⟩))
              | _ => .error .nilParent
      else
        catLoop recurse idMap rest
          (writeAll ret (idMap t.id) (some ⟨t, "/category/" ++ t.slug⟩))

/-- `GetCategories` (part_000 lines 118-177) with explicit fuel. -/
def getCategoriesM (store : List Term) : Nat → List Int →
    Except CatErr (List (Option Category))
  | 0, _ => .error .diverge
  | fuel + 1, categoryIds =>
      if categoryIds.length = 0 then .ok []
      else
        catLoop (fun p => getCategoriesM store fuel [p])
          ((dedupe categoryIds).2)
          (getTermsGo store (dedupe categoryIds).1).1
          (List.replicate categoryIds.length none)

/-- Elements of `writeAll` come from the original list or are the
written value. -/
theorem writeAll_mem {β : Type} (idxs : List Nat) (l : List β) (v y : β)
    (hy : y ∈ writeAll l idxs v) : y ∈ l ∨ y = v := by
  induction idxs generalizing l with
  | nil => exact Or.inl hy
  | cons j rest ih =>
      have hy' : y ∈ writeAll (l.set j v) rest v := hy
      rcases ih (l.set j v) hy' with h | h
      · rcases List.mem_or_eq_of_mem_set h with h2 | h2
        · exact Or.inl h2
        · exact Or.inr h2
      · exact Or.inr h

/-- The link property each produced category must satisfy, relative to
the parent resolver in scope. -/
def LinkSpec (recurse : Int → Except CatErr (List (Option Category)))
    (c : Category) : Prop :=
  (c.term.parent ≤ 0 → c.link = "/category/" ++ c.term.slug)
  ∧ (0 < c.term.parent → ∃ ps p, recurse c.term.parent = .ok ps
      ∧ ps.head? = some (some p) ∧ c.link = p.link ++ "/" ++ c.term.slug)

theorem catLoop_sound (recurse : Int → Except CatErr (List (Option Category)))
    (idMap : Int → List Nat) :
    ∀ (terms : List (Option Term)) (acc res : List (Option Category)),
      catLoop recurse idMap terms acc = .ok res →
      (∀ oc ∈ acc, ∀ c, oc = some c → LinkSpec recurse c) →
      ∀ oc ∈ res, ∀ c, oc = some c → LinkSpec recurse c := by
  intro terms
  induction terms with
  | nil =>
      intro acc res hres hacc
      cases hres
      exact hacc
  | cons ot rest ih =>
      intro acc res hres hacc
      cases ot with
      | none => exact ih acc res hres hacc
      | some t =>
          rw [catLoop] at hres
          by_cases hpar : 0 < t.parent
          · rw [if_pos hpar] at hres
            split at hres
            · cases hres
            · next parents hrec =>
                split at hres
                · cases hres
                · split at hres
                  · next p hhead =>
                      refine ih _ res hres ?_
                      intro oc hoc c hc
                      rcases writeAll_mem _ _ _ _ hoc with hmem | hmem
                      · exact hacc oc hmem c hc
                      · rw [hmem] at hc
                        cases hc
                        constructor
                        · intro hle
                          have h2 : t.parent ≤ 0 := hle
                          omega
                        · intro _
                          exact ⟨parents, p, hrec, hhead, rfl⟩
                  · cases hres
          · rw [if_neg hpar] at hres
            refine ih _ res hres ?_
            intro oc hoc c hc
            rcases writeAll_mem _ _ _ _ hoc with hmem | hmem
            · exact hacc oc hmem c hc
            · rw [hmem] at hc
              cases hc
              constructor
              · intro _
                rfl
              · intro hgt
                have h2 : 0 < t.parent := hgt
                omega

/-- **C9.** Every category successfully resolved by `GetCategories`
carries the claimed link: `"/category/" + slug` when its parent is 0,
and otherwise the link of the parent category — obtained by recursively
invoking the batch loader on the parent id — joined with `"/" + slug`. -/
theorem getCategories_link (store : List Term) (fuel : Nat) (ids : List Int)
    (res : List (Option Category))
    (hok : getCategoriesM store (fuel + 1) ids = .ok res) :
    ∀ oc ∈ res, ∀ c, oc = some c →
      (c.term.parent ≤ 0 → c.link = "/category/" ++ c.term.slug)
      ∧ (0 < c.term.parent →
          ∃ ps p, getCategoriesM store fuel [c.term.parent] = .ok ps
            ∧ ps.head? = some (some p)
            ∧ c.link = p.link ++ "/" ++ c.term.slug) := by
  rw [getCategoriesM] at hok
  by_cases h0 : ids.length = 0
  · rw [if_pos h0] at hok
    cases hok
    intro oc hoc
    cases hoc
  · rw [if_neg h0] at hok
    have hs := catLoop_sound (fun p => getCategoriesM store fuel [p])
      ((dedupe ids).2) _ _ res hok
      (by
        intro oc hoc c hc
        rw [List.eq_of_mem_replicate hoc] at hc
        cases hc)
    intro oc hoc c hc
    exact hs oc hoc c hc

/-- Concrete store for C9: root "news" (id 1) and its child "tech"
(id 2). -/
def catStoreW : List Term :=
  [{ id := 1, slug := "news" }, { id := 2, slug := "tech", parent := 1 }]

/-- Witness for C9: on `catStoreW`, `GetCategories [1, 2]` resolves
"news" to `/category/news` and "tech" to `/category/news/tech`, and the
claimed link equations hold for the resolved "tech" record. -/
theorem getCategories_link_witness :
    (getCategoriesM catStoreW (1 + 1) [1, 2] = .ok
        [some ⟨{ id := 1, slug := "news" }, "/category/news"⟩,
         some ⟨{ id := 2, slug := "tech", parent := 1 }, "/category/news/tech"⟩]
      ∧ (some (⟨{ id := 2, slug := "tech", parent := 1 },
            "/category/news/tech"⟩ : Category))
          ∈ [some ⟨{ id := 1, slug := "news" }, "/category/news"⟩,
             some ⟨{ id := 2, slug := "tech", parent := 1 }, "/category/news/tech"⟩])
    ∧ ((⟨{ id := 2, slug := "tech", parent := 1 },
          "/category/news/tech"⟩ : Category).term.parent ≤ 0 →
        (⟨{ id := 2, slug := "tech", parent := 1 },
          "/category/news/tech"⟩ : Category).link =
          "/category/" ++ (⟨{ id := 2, slug := "tech", parent := 1 },
            "/category/news/tech"⟩ : Category).term.slug)
      ∧ (0 < (⟨{ id := 2, slug := "tech", parent := 1 },
            "/category/news/tech"⟩ : Category).term.parent →
          ∃ ps p, getCategoriesM catStoreW 1
              [(⟨{ id := 2, slug := "tech", parent := 1 },
                "/category/news/tech"⟩ : Category).term.parent] = .ok ps
            ∧ ps.head? = some (some p)
            ∧ (⟨{ id := 2, slug := "tech", parent := 1 },
                "/category/news/tech"⟩ : Category).link =
                p.link ++ "/" ++ (⟨{ id := 2, slug := "tech", parent := 1 },
                  "/category/news/tech"⟩ : Category).term.slug) :=
  ⟨⟨rfl, by decide⟩,
    getCategories_link catStoreW 1 [1, 2]
      [some ⟨{ id := 1, slug := "news" }, "/category/news"⟩,
       some ⟨{ id := 2, slug := "tech", parent := 1 }, "/category/news/tech"⟩]
      rfl
      (some ⟨{ id := 2, slug := "tech", parent := 1 }, "/category/news/tech"⟩)
      (by decide)
      ⟨{ id := 2, slug := "tech", parent := 1 }, "/category/news/tech"⟩
      rfl⟩

/-! ## Cache-aside batch loader: `cacheGetMulti` (src/cache.go 41-93)

The Go `map[string][]int` key map is modelled as an association list
with unique keys in insertion order (Go map iteration order is
unspecified; none of the verified claims depends on it).  The cache is
a total function from keys to optional opaque values; `GetMulti`
returns the found subset of the requested keys, here in request order,
paired with their values. -/

/-- Association-list model of the `map[string][]int` key map. -/
abbrev KeyMap := List (String × List Nat)

def kmLookup : KeyMap → String → Option (List Nat)
  | [], _ => none
  | (k, v) :: rest, key => if k = key then some v else kmLookup rest key

def kmAppend : KeyMap → String → Nat → KeyMap
  | [], key, i => [(key, [i])]
  | (k, v) :: rest, key, i =>
      if k = key then (k, v ++ [i]) :: rest
      else (k, v) :: kmAppend rest key i

def kmDelete : KeyMap → String → KeyMap
  | [], _ => []
  | (k, v) :: rest, key => if k = key then rest else (k, v) :: kmDelete rest key

theorem kmLookup_eq_none (km : KeyMap) (k : String) :
    kmLookup km k = none ↔ k ∉ km.map Prod.fst := by
  induction km with
  | nil => simp [kmLookup]
  | cons e rest ih =>
      obtain ⟨k0, v0⟩ := e
      rw [kmLookup]
      by_cases h : k0 = k
      · simp [h]
      · simp only [if_neg h, List.map_cons, List.mem_cons, ih]
        constructor
        · intro hn hc
          rcases hc with hc | hc
          · exact h hc.symm
          · exact hn hc
        · intro hn hc
          exact hn (Or.inr hc)

theorem kmLookup_mem (km : KeyMap) (k : String) (v : List Nat)
    (h : kmLookup km k = some v) : (k, v) ∈ km := by
  induction km with
  | nil => cases h
  | cons e rest ih =>
      obtain ⟨k0, v0⟩ := e
      rw [kmLookup] at h
      by_cases hk : k0 = k
      · rw [if_pos hk] at h
        have hv := Option.some.inj h
        rw [← hk, ← hv]
        exact List.mem_cons_self _ _
      · rw [if_neg hk] at h
        exact List.mem_cons_of_mem _ (ih h)

theorem mem_kmLookup (km : KeyMap) (k : String) (v : List Nat)
    (hnd : (km.map Prod.fst).Nodup) (h : (k, v) ∈ km) :
    kmLookup km k = some v := by
  induction km with
  | nil => cases h
  | cons e rest ih =>
      obtain ⟨k0, v0⟩ := e
      rw [List.map_cons, List.nodup_cons] at hnd
      rcases List.mem_cons.mp h with h1 | h1
      · have hk : k0 = k := (congrArg Prod.fst h1).symm
        have hv : v0 = v := (congrArg Prod.snd h1).symm
        rw [kmLookup, if_pos hk, hv]
      · rw [kmLookup]
        by_cases hk : k0 = k
        · exfalso
          apply hnd.1
          rw [hk]
          exact List.mem_map.mpr ⟨(k, v), h1, rfl⟩
        · rw [if_neg hk]
          exact ih hnd.2 h1

theorem kmAppend_map_fst (km : KeyMap) (k : String) (i : Nat) :
    (kmAppend km k i).map Prod.fst =
      if (kmLookup km k).isSome then km.map Prod.fst
      else km.map Prod.fst ++ [k] := by
  induction km with
  | nil => simp [kmAppend, kmLookup]
  | cons e rest ih =>
      obtain ⟨k0, v0⟩ := e
      rw [kmAppend, kmLookup]
      by_cases h : k0 = k
      · simp [h]
      · simp only [if_neg h, List.map_cons, ih]
        by_cases hs : (kmLookup rest k).isSome
        · simp [hs]
        · simp [hs]

theorem kmAppend_nodup (km : KeyMap) (k : String) (i : Nat)
    (hnd : (km.map Prod.fst).Nodup) : ((kmAppend km k i).map Prod.fst).Nodup := by
  rw [kmAppend_map_fst]
  by_cases hs : (kmLookup km k).isSome
  · rw [if_pos hs]
    exact hnd
  · rw [if_neg hs]
    rw [List.nodup_append]
    refine ⟨hnd, List.nodup_singleton k, ?_⟩
    intro x hx hc
    rw [List.mem_singleton] at hc
    rw [hc] at hx
    have hnone : kmLookup km k = none := by
      cases hl : kmLookup km k with
      | none => rfl
      | some v =>
          rw [hl] at hs
          exact absurd rfl hs
    exact (kmLookup_eq_none km k).mp hnone hx

theorem kmAppend_lookup_self (km : KeyMap) (k : String) (i : Nat) :
    kmLookup (kmAppend km k i) k = some ((kmLookup km k).getD [] ++ [i]) := by
  induction km with
  | nil => simp [kmAppend, kmLookup]
  | cons e rest ih =>
      obtain ⟨k0, v0⟩ := e
      by_cases h : k0 = k
      · rw [kmAppend, if_pos h, kmLookup, if_pos h, kmLookup, if_pos h]
        rfl
      · rw [kmAppend, if_neg h, kmLookup, if_neg h, kmLookup, if_neg h, ih]

theorem kmAppend_lookup_ne (km : KeyMap) (k k2 : String) (i : Nat) (h : k2 ≠ k) :
    kmLookup (kmAppend km k i) k2 = kmLookup km k2 := by
  induction km with
  | nil =>
      show kmLookup [(k, [i])] k2 = none
      rw [kmLookup, if_neg (fun hc => h hc.symm)]
      rfl
  | cons e rest ih =>
      obtain ⟨k0, v0⟩ := e
      rw [kmAppend]
      by_cases hk : k0 = k
      · rw [if_pos hk, kmLookup, kmLookup]
        have : ¬ k0 = k2 := by
          rw [hk]
          exact fun hc => h hc.symm
        rw [if_neg this, if_neg this]
      · rw [if_neg hk, kmLookup, kmLookup, ih]

theorem kmAppend_mem (km : KeyMap) (k : String) (i : Nat)
    (hnd : (km.map Prod.fst).Nodup) (e : String × List Nat)
    (he : e ∈ kmAppend km k i) :
    (e ∈ km ∧ e.1 ≠ k) ∨ e = (k, (kmLookup km k).getD [] ++ [i]) := by
  induction km with
  | nil =>
      rw [kmAppend] at he
      rw [List.mem_singleton] at he
      right
      rw [he]
      rfl
  | cons e0 rest ih =>
      obtain ⟨k0, v0⟩ := e0
      rw [List.map_cons, List.nodup_cons] at hnd
      rw [kmAppend] at he
      by_cases hk : k0 = k
      · rw [if_pos hk] at he
        rcases List.mem_cons.mp he with h1 | h1
        · right
          rw [h1, kmLookup, if_pos hk]
          rw [hk]
          rfl
        · left
          refine ⟨List.mem_cons_of_mem _ h1, ?_⟩
          intro hc
          apply hnd.1
          rw [hk, ← hc]
          exact List.mem_map.mpr ⟨e, h1, rfl⟩
      · rw [if_neg hk] at he
        rcases List.mem_cons.mp he with h1 | h1
        · left
          rw [h1]
          exact ⟨List.mem_cons_self _ _, hk⟩
        · rcases ih hnd.2 h1 with h2 | h2
          · exact Or.inl ⟨List.mem_cons_of_mem _ h2.1, h2.2⟩
          · right
            rw [h2, kmLookup, if_neg hk]

theorem kmDelete_mem (km : KeyMap) (k : String) (e : String × List Nat)
    (he : e ∈ kmDelete km k) : e ∈ km := by
  induction km with
  | nil => cases he
  | cons e0 rest ih =>
      obtain ⟨k0, v0⟩ := e0
      rw [kmDelete] at he
      by_cases hk : k0 = k
      · rw [if_pos hk] at he
        exact List.mem_cons_of_mem _ he
      · rw [if_neg hk] at he
        rcases List.mem_cons.mp he with h1 | h1
        · rw [h1]
          exact List.mem_cons_self _ _
        · exact List.mem_cons_of_mem _ (ih h1)

theorem kmDelete_map_fst_sublist (km : KeyMap) (k : String) :
    ((kmDelete km k).map Prod.fst).Sublist (km.map Prod.fst) := by
  induction km with
  | nil => exact List.Sublist.refl _
  | cons e0 rest ih =>
      obtain ⟨k0, v0⟩ := e0
      rw [kmDelete]
      by_cases hk : k0 = k
      · rw [if_pos hk, List.map_cons]
        exact List.sublist_cons_of_sublist _ (List.Sublist.refl _)
      · rw [if_neg hk, List.map_cons, List.map_cons]
        exact List.Sublist.cons₂ _ ih

theorem kmDelete_nodup (km : KeyMap) (k : String)
    (hnd : (km.map Prod.fst).Nodup) : ((kmDelete km k).map Prod.fst).Nodup :=
  List.Nodup.sublist (kmDelete_map_fst_sublist km k) hnd

theorem kmDelete_lookup_self (km : KeyMap) (k : String)
    (hnd : (km.map Prod.fst).Nodup) : kmLookup (kmDelete km k) k = none := by
  induction km with
  | nil => rfl
  | cons e0 rest ih =>
      obtain ⟨k0, v0⟩ := e0
      rw [List.map_cons, List.nodup_cons] at hnd
      rw [kmDelete]
      by_cases hk : k0 = k
      · rw [if_pos hk, kmLookup_eq_none]
        intro hc
        apply hnd.1
        rw [hk]
        exact hc
      · rw [if_neg hk, kmLookup, if_neg hk]
        exact ih hnd.2

theorem kmDelete_mem_ne (km : KeyMap) (k : String)
    (hnd : (km.map Prod.fst).Nodup) (e : String × List Nat)
    (he : e ∈ kmDelete km k) : e.1 ≠ k := by
  induction km with
  | nil => cases he
  | cons e0 rest ih =>
      obtain ⟨k0, v0⟩ := e0
      rw [List.map_cons, List.nodup_cons] at hnd
      rw [kmDelete] at he
      by_cases hk : k0 = k
      · rw [if_pos hk] at he
        intro hc
        apply hnd.1
        rw [hk, ← hc]
        exact List.mem_map.mpr ⟨e, he, rfl⟩
      · rw [if_neg hk] at he
        rcases List.mem_cons.mp he with h1 | h1
        · rw [h1]
          exact hk
        · exact ih hnd.2 h1

theorem kmDelete_lookup_ne (km : KeyMap) (k k2 : String) (h : k2 ≠ k) :
    kmLookup (kmDelete km k) k2 = kmLookup km k2 := by
  induction km with
  | nil => rfl
  | cons e0 rest ih =>
      obtain ⟨k0, v0⟩ := e0
      rw [kmDelete]
      by_cases hk : k0 = k
      · rw [if_pos hk, kmLookup]
        have : ¬ k0 = k2 := by
          rw [hk]
          exact fun hc => h hc.symm
        rw [if_neg this]
      · rw [if_neg hk, kmLookup, kmLookup, ih]

/-- The key construction loop of `cacheGetMulti` (src/cache.go 60-71):
per position, the formatted key enters the keys array only on first
occurrence (other positions keep Go's zero value `""`), and the
position is appended to the key's map entry. -/
def buildKeysLoop (keyf : Int → String) : List Int → Nat → KeyMap →
    List String × KeyMap
  | [], _, km => ([], km)
  | a :: rest, i, km =>
      let key := keyf a
      let r := buildKeysLoop keyf rest (i + 1) (kmAppend km key i)
      ((if (kmLookup km key).isNone then key else "") :: r.1, r.2)

def buildKeys (keyf : Int → String) (ids : List Int) : List String × KeyMap :=
  buildKeysLoop keyf ids 0 []

/-- The found-key loop of `cacheGetMulti` (src/cache.go 83-89): each
found key's value is written at every position its map entry records,
then the key is deleted from the map. -/
def cacheFold {V : Type} (found : List (String × V))
    (st : List (Option V) × KeyMap) : List (Option V) × KeyMap :=
  found.foldl
    (fun st p =>
      (writeAll st.1 ((kmLookup st.2 p.1).getD []) (some p.2),
       kmDelete st.2 p.1))
    st

/-- `cacheGetMulti` (src/cache.go 41-93): builds keys and key map, sizes
the destination slice, and — when a cache manager is configured and the
cache is not being flushed (`useCache`) — multi-gets, writes each found
value at every position of its key, and deletes found keys from the
map.  The returned map holds exactly the still-missing keys. -/
def cacheGetMulti {V : Type} (cache : String → Option V) (useCache : Bool)
    (keyf : Int → String) (objectIds : List Int) :
    List (Option V) × KeyMap :=
  let bk := buildKeys keyf objectIds
  let dst0 := List.replicate objectIds.length (none : Option V)
  if useCache then
    cacheFold (bk.1.filterMap (fun k => (cache k).map (fun v => (k, v))))
      (dst0, bk.2)
  else (dst0, bk.2)

/-- The missed-id collection of `GetPosts` (src/unnamed/part_001
185-188): one id per missing key, taken from the first position mapped
to that key. -/
def getPostsMissedIds (postIds : List Int) (km : KeyMap) : List Int :=
  km.map (fun e => postIds.getD (e.2.headD 0) 0)

/-- The backing-store gating of `GetPosts` (src/unnamed/part_001
176-192): the single `GetObjects` batch query runs only when the
missing-key map is nonempty. -/
def getPostsBackingCalls {V : Type} (cache : String → Option V)
    (useCache : Bool) (keyf : Int → String) (postIds : List Int) : Nat :=
  if postIds.length = 0 then 0
  else if 0 < (cacheGetMulti cache useCache keyf postIds).2.length then 1
  else 0

/-- Invariant bundle for the key-construction loop. -/
theorem buildKeysLoop_inv (keyf : Int → String) (ids0 : List Int) :
    ∀ (rest : List Int) (i : Nat) (km : KeyMap),
      (∀ j, ids0[i + j]? = rest[j]?) →
      (km.map Prod.fst).Nodup →
      (∀ e ∈ km, e.2 ≠ [] ∧ ∀ j ∈ e.2, ∃ x, ids0[j]? = some x ∧ keyf x = e.1) →
      (((buildKeysLoop keyf rest i km).2.map Prod.fst).Nodup
      ∧ (∀ e ∈ (buildKeysLoop keyf rest i km).2,
          e.2 ≠ [] ∧ ∀ j ∈ e.2, ∃ x, ids0[j]? = some x ∧ keyf x = e.1)
      ∧ (∀ k idxs, kmLookup km k = some idxs →
          ∃ suf, kmLookup (buildKeysLoop keyf rest i km).2 k = some (idxs ++ suf))
      ∧ (∀ k, kmLookup km k = none →
          (kmLookup (buildKeysLoop keyf rest i km).2 k).isSome →
          k ∈ (buildKeysLoop keyf rest i km).1)
      ∧ (∀ j x, rest[j]? = some x →
          ∃ idxs, kmLookup (buildKeysLoop keyf rest i km).2 (keyf x) = some idxs
            ∧ (i + j) ∈ idxs)) := by
  intro rest
  induction rest with
  | nil =>
      intro i km _ hnd hent
      refine ⟨hnd, hent, ?_, ?_, ?_⟩
      · intro k idxs h
        exact ⟨[], by rw [List.append_nil]; exact h⟩
      · intro k hk hs
        have hs' : (kmLookup km k).isSome := hs
        rw [hk] at hs'
        exact Bool.noConfusion hs'
      · intro j x hj
        cases hj
  | cons a rest ih =>
      intro i km hpos hnd hent
      have hida : ids0[i]? = some a := by
        have h2 := hpos 0
        rw [Nat.add_zero, List.getElem?_cons_zero] at h2
        exact h2
      have hnd' := kmAppend_nodup km (keyf a) i hnd
      have hent' : ∀ e ∈ kmAppend km (keyf a) i,
          e.2 ≠ [] ∧ ∀ j ∈ e.2, ∃ x, ids0[j]? = some x ∧ keyf x = e.1 := by
        intro e he
        rcases kmAppend_mem km (keyf a) i hnd e he with ⟨hmem, _⟩ | heq
        · exact hent e hmem
        · rw [heq]
          refine ⟨by simp, ?_⟩
          intro j hj
          rw [List.mem_append] at hj
          rcases hj with hj | hj
          · cases hl : kmLookup km (keyf a) with
            | none =>
                rw [hl] at hj
                cases hj
            | some old =>
                rw [hl] at hj
                have hm := kmLookup_mem km (keyf a) old hl
                exact (hent _ hm).2 j hj
          · rw [List.mem_singleton] at hj
            rw [hj]
            exact ⟨a, hida, rfl⟩
      have hpos' : ∀ j, ids0[(i + 1) + j]? = rest[j]? := by
        intro j
        have h2 := hpos (j + 1)
        rw [List.getElem?_cons_succ] at h2
        rw [show (i + 1) + j = i + (j + 1) by omega]
        exact h2
      obtain ⟨cnd, cent, cext, ckey, creg⟩ := ih (i + 1) (kmAppend km (keyf a) i)
        hpos' hnd' hent'
      rw [buildKeysLoop]
      refine ⟨cnd, cent, ?_, ?_, ?_⟩
      · intro k idxs h
        by_cases hk : k = keyf a
        · rw [hk] at h ⊢
          obtain ⟨suf, hsuf⟩ := cext (keyf a) ((kmLookup km (keyf a)).getD [] ++ [i])
            (kmAppend_lookup_self km (keyf a) i)
          rw [h] at hsuf
          refine ⟨[i] ++ suf, ?_⟩
          simp only [Option.getD_some] at hsuf
          rw [← List.append_assoc]
          exact hsuf
        · exact cext k idxs (by rw [kmAppend_lookup_ne km (keyf a) k i hk]; exact h)
      · intro k hk hs
        by_cases hka : k = keyf a
        · refine List.mem_cons.mpr (Or.inl ?_)
          rw [hka] at hk
          rw [hka, hk]
          rfl
        · refine List.mem_cons.mpr (Or.inr ?_)
          refine ckey k ?_ hs
          rw [kmAppend_lookup_ne km (keyf a) k i hka]
          exact hk
      · intro j x hj
        cases j with
        | zero =>
            have hxa : x = a := by
              rw [List.getElem?_cons_zero] at hj
              exact (Option.some.inj hj).symm
            rw [hxa]
            obtain ⟨suf, hsuf⟩ := cext (keyf a)
              ((kmLookup km (keyf a)).getD [] ++ [i])
              (kmAppend_lookup_self km (keyf a) i)
            refine ⟨(kmLookup km (keyf a)).getD [] ++ [i] ++ suf, hsuf, ?_⟩
            rw [Nat.add_zero, List.append_assoc, List.mem_append]
            right
            rw [List.mem_append]
            left
            exact List.mem_singleton.mpr rfl
        | succ j =>
            rw [List.getElem?_cons_succ] at hj
            obtain ⟨idxs, hidxs, hmem⟩ := creg j x hj
            refine ⟨idxs, hidxs, ?_⟩
            rw [show i + (j + 1) = (i + 1) + j by omega]
            exact hmem

theorem getD_of_getElem? (l : List Int) (j : Nat) (x : Int) (h : l[j]? = some x) :
    l.getD j 0 = x := by
  induction l generalizing j with
  | nil =>
      rw [List.getElem?_nil] at h
      cases h
  | cons a t ih =>
      cases j with
      | zero =>
          rw [List.getElem?_cons_zero] at h
          cases h
          rfl
      | succ j =>
          rw [List.getElem?_cons_succ] at h
          exact ih j h

/-- Invariant-carrying induction over the found-key loop. -/
theorem cacheFold_spec {V : Type} (cache : String → Option V)
    (keyf : Int → String) (ids0 : List Int) (bk2 : KeyMap)
    (hbkent : ∀ e ∈ bk2, ∀ j ∈ e.2, ∃ x, ids0[j]? = some x ∧ keyf x = e.1) :
    ∀ (found : List (String × V)) (st : List (Option V) × KeyMap),
      (∀ p ∈ found, cache p.1 = some p.2) →
      (st.2.map Prod.fst).Nodup →
      (∀ e ∈ st.2, e ∈ bk2) →
      (∀ k, kmLookup st.2 k = kmLookup bk2 k ∨ kmLookup st.2 k = none) →
      st.1.length = ids0.length →
      (∀ (i : Nat) (x : Int) (v : V), ids0[i]? = some x → cache (keyf x) = some v →
        st.1[i]? = some (some v)
        ∨ (∃ idxs, kmLookup st.2 (keyf x) = some idxs ∧ i ∈ idxs
            ∧ (keyf x, v) ∈ found)) →
      (∀ e ∈ st.2, cache e.1 = none ∨ ∃ v, (e.1, v) ∈ found) →
      ((cacheFold found st).1.length = ids0.length
       ∧ (∀ (i : Nat) (x : Int) (v : V), ids0[i]? = some x → cache (keyf x) = some v →
            (cacheFold found st).1[i]? = some (some v))
       ∧ (∀ e ∈ (cacheFold found st).2, e ∈ bk2 ∧ cache e.1 = none)) := by
  intro found
  induction found with
  | nil =>
      intro st _ _ hsub _ hlen hpend hmiss
      refine ⟨hlen, ?_, ?_⟩
      · intro i x v hx hv
        rcases hpend i x v hx hv with h | ⟨_, _, _, hc⟩
        · exact h
        · cases hc
      · intro e he
        rcases hmiss e he with h | ⟨_, hc⟩
        · exact ⟨hsub e he, h⟩
        · cases hc
  | cons p rest ih =>
      intro st hfound hnd hsub hsubl hlen hpend hmiss
      have hcachep : cache p.1 = some p.2 := hfound p (List.mem_cons_self _ _)
      have hown : ∀ idxs1, kmLookup st.2 p.1 = some idxs1 →
          ∀ i x, ids0[i]? = some x → i ∈ idxs1 → keyf x = p.1 := by
        intro idxs1 hl i x hx hi
        have hlbk : kmLookup bk2 p.1 = some idxs1 := by
          rcases hsubl p.1 with h | h
          · rw [← h]
            exact hl
          · rw [h] at hl
            cases hl
        have hmem := kmLookup_mem bk2 p.1 idxs1 hlbk
        obtain ⟨x2, hx2, hk2⟩ := hbkent _ hmem i hi
        rw [hx] at hx2
        have hxx : x2 = x := (Option.some.inj hx2).symm
        rw [← hxx]
        exact hk2
      have hstep := ih
        (writeAll st.1 ((kmLookup st.2 p.1).getD []) (some p.2), kmDelete st.2 p.1)
        (fun q hq => hfound q (List.mem_cons_of_mem _ hq))
        (kmDelete_nodup st.2 p.1 hnd)
        (fun e he => hsub e (kmDelete_mem st.2 p.1 e he))
        (by
          intro k
          by_cases hk : k = p.1
          · rw [hk]
            exact Or.inr (kmDelete_lookup_self st.2 p.1 hnd)
          · rw [kmDelete_lookup_ne st.2 p.1 k hk]
            exact hsubl k)
        (by rw [writeAll_length]; exact hlen)
        (by
          intro i x v hx hv
          have hilt : i < st.1.length := by
            rw [hlen]
            by_contra hc
            rw [List.getElem?_eq_none_iff.mpr (Nat.le_of_not_lt hc)] at hx
            cases hx
          rcases hpend i x v hx hv with hwr | ⟨idxs, hlk, hiidx, hmemf⟩
          · left
            rw [writeAll_get]
            by_cases hin : i ∈ (kmLookup st.2 p.1).getD []
            · rw [if_pos ⟨hin, hilt⟩]
              cases hl : kmLookup st.2 p.1 with
              | none =>
                  rw [hl] at hin
                  cases hin
              | some idxs1 =>
                  rw [hl] at hin
                  have hkx := hown idxs1 hl i x hx hin
                  rw [hkx] at hv
                  rw [hcachep] at hv
                  rw [Option.some.inj hv]
            · rw [if_neg (fun hc => hin hc.1)]
              exact hwr
          · rcases List.mem_cons.mp hmemf with hhead | htail
            · left
              have hk1 : keyf x = p.1 := congrArg Prod.fst hhead
              have hv1 : v = p.2 := congrArg Prod.snd hhead
              rw [writeAll_get]
              rw [hk1] at hlk
              rw [if_pos ⟨by rw [hlk]; exact hiidx, hilt⟩, hv1]
            · by_cases hkp : keyf x = p.1
              · left
                rw [writeAll_get]
                rw [hkp] at hlk
                have hv2 : v = p.2 := by
                  rw [hkp] at hv
                  rw [hcachep] at hv
                  exact (Option.some.inj hv).symm
                rw [if_pos ⟨by rw [hlk]; exact hiidx, hilt⟩, hv2]
              · right
                refine ⟨idxs, ?_, hiidx, htail⟩
                rw [kmDelete_lookup_ne st.2 p.1 (keyf x) hkp]
                exact hlk)
        (by
          intro e he
          have hene := kmDelete_mem_ne st.2 p.1 hnd e he
          rcases hmiss e (kmDelete_mem st.2 p.1 e he) with h | ⟨v, hv⟩
          · exact Or.inl h
          · rcases List.mem_cons.mp hv with hhead | htail
            · exact absurd (congrArg Prod.fst hhead) hene
            · exact Or.inr ⟨v, htail⟩)
      exact hstep

theorem mem_of_getElem?_int (l : List Int) (i : Nat) (x : Int)
    (h : l[i]? = some x) : x ∈ l := by
  have hlt : i < l.length := by
    by_contra hc
    rw [List.getElem?_eq_none_iff.mpr (Nat.le_of_not_lt hc)] at h
    cases h
  have h2 := List.getElem?_eq_getElem hlt
  rw [h] at h2
  rw [Option.some.inj h2]
  exact List.getElem_mem hlt

/-- **C4.** With caching enabled, `cacheGetMulti` writes every
cache-found value into every output position mapped to its key
(duplicates included) and removes found keys from the missing-key map:
the returned map holds only keys the cache missed, each mapping to the
(nonempty) positions of the ids that format to it.  Consequently a full
cache hit empties the missing map and `GetPosts`, which gates its only
backing-store batch query on a non-empty missing map, issues zero
backing-store calls; and on a partial hit every id `GetPosts` re-fetches
is one whose key the cache missed — the hit portion is never re-fetched. -/
theorem cacheGetMulti_spec {V : Type} (cache : String → Option V)
    (keyf : Int → String) (ids : List Int) :
    (cacheGetMulti cache true keyf ids).1.length = ids.length
    ∧ (∀ (i : Nat) (x : Int) (v : V), ids[i]? = some x →
        cache (keyf x) = some v →
        (cacheGetMulti cache true keyf ids).1[i]? = some (some v))
    ∧ (∀ e ∈ (cacheGetMulti cache true keyf ids).2,
        cache e.1 = none ∧ e.2 ≠ []
          ∧ ∀ j ∈ e.2, ∃ x, ids[j]? = some x ∧ keyf x = e.1)
    ∧ ((∀ x ∈ ids, (cache (keyf x)).isSome) →
        (cacheGetMulti cache true keyf ids).2 = []
        ∧ getPostsBackingCalls cache true keyf ids = 0)
    ∧ (∀ y ∈ getPostsMissedIds ids (cacheGetMulti cache true keyf ids).2,
        cache (keyf y) = none) := by
  obtain ⟨bnd, bent, _, bkey, breg⟩ := buildKeysLoop_inv keyf ids ids 0 []
    (by intro j; rw [Nat.zero_add]) List.nodup_nil (by intro e he; cases he)
  have hcgm : cacheGetMulti cache true keyf ids = cacheFold
      ((buildKeys keyf ids).1.filterMap (fun k => (cache k).map (fun v => (k, v))))
      (List.replicate ids.length (none : Option V), (buildKeys keyf ids).2) := rfl
  obtain ⟨flen, fwrite, fent⟩ := cacheFold_spec cache keyf ids (buildKeys keyf ids).2
    (fun e he => (bent e he).2)
    ((buildKeys keyf ids).1.filterMap (fun k => (cache k).map (fun v => (k, v))))
    (List.replicate ids.length (none : Option V), (buildKeys keyf ids).2)
    (by
      intro p hp
      obtain ⟨k, hk, hmap⟩ := List.mem_filterMap.mp hp
      obtain ⟨v, hv, hpe⟩ := Option.map_eq_some'.mp hmap
      rw [← hpe]
      exact hv)
    bnd
    (fun e he => he)
    (fun k => Or.inl rfl)
    (List.length_replicate _ _)
    (by
      intro i x v hx hv
      right
      obtain ⟨idxs, hlk, hmem⟩ := breg i x hx
      rw [Nat.zero_add] at hmem
      refine ⟨idxs, hlk, hmem, ?_⟩
      refine List.mem_filterMap.mpr ⟨keyf x, ?_, ?_⟩
      · exact bkey (keyf x) rfl (by rw [hlk]; rfl)
      · rw [hv]
        rfl)
    (by
      intro e he
      cases hc : cache e.1 with
      | none => exact Or.inl rfl
      | some v =>
          right
          refine ⟨v, List.mem_filterMap.mpr ⟨e.1, ?_, ?_⟩⟩
          · refine bkey e.1 rfl ?_
            rw [mem_kmLookup _ e.1 e.2 bnd he]
            rfl
          · rw [hc]
            rfl)
  have hentries : ∀ e ∈ (cacheGetMulti cache true keyf ids).2,
      cache e.1 = none ∧ e.2 ≠ []
        ∧ ∀ j ∈ e.2, ∃ x, ids[j]? = some x ∧ keyf x = e.1 := by
    intro e he
    rw [hcgm] at he
    obtain ⟨hin, hcn⟩ := fent e he
    exact ⟨hcn, (bent e hin).1, (bent e hin).2⟩
  have hfullhit : (∀ x ∈ ids, (cache (keyf x)).isSome) →
      (cacheGetMulti cache true keyf ids).2 = [] := by
    intro hfull
    cases hr : (cacheGetMulti cache true keyf ids).2 with
    | nil => rfl
    | cons e rest =>
        exfalso
        have he : e ∈ (cacheGetMulti cache true keyf ids).2 := by
          rw [hr]
          exact List.mem_cons_self _ _
        obtain ⟨hcn, hne, hpos⟩ := hentries e he
        obtain ⟨j, hj⟩ := List.exists_mem_of_ne_nil e.2 hne
        obtain ⟨x, hx, hkx⟩ := hpos j hj
        have hs := hfull x (mem_of_getElem?_int ids j x hx)
        rw [hkx, hcn] at hs
        exact Bool.noConfusion hs
  refine ⟨?_, ?_, hentries, ?_, ?_⟩
  · rw [hcgm]
    exact flen
  · intro i x v hx hv
    rw [hcgm]
    exact fwrite i x v hx hv
  · intro hfull
    have hr2 := hfullhit hfull
    refine ⟨hr2, ?_⟩
    unfold getPostsBackingCalls
    by_cases h0 : ids.length = 0
    · rw [if_pos h0]
    · rw [if_neg h0, hr2]
      rw [if_neg (by simp : ¬ 0 < ([] : KeyMap).length)]
  · intro y hy
    obtain ⟨e, he, hye⟩ := List.mem_map.mp hy
    obtain ⟨hcn, hne, hpos⟩ := hentries e he
    cases h2 : e.2 with
    | nil => exact absurd h2 hne
    | cons j tl =>
        have hj : j ∈ e.2 := by
          rw [h2]
          exact List.mem_cons_self _ _
        obtain ⟨x, hx, hkx⟩ := hpos j hj
        have hgd : ids.getD (e.2.headD 0) 0 = x := by
          rw [h2]
          exact getD_of_getElem? ids j x hx
        rw [← hye, hgd, hkx]
        exact hcn

/-- Witness for C4: three requested ids `[1, 2, 1]` with id 1 cached:
the cached value lands at position 0 (and would at every duplicate
position), and id 2's key remains in the missing map while the missed
ids re-fetched all missed the cache. -/
theorem cacheGetMulti_spec_witness :
    (([(1 : Int), 2, 1][0]? = some 1
      ∧ (fun k => if k = "wp_post_1" then some "P1" else none) "wp_post_1"
          = some "P1")
    ∧ (cacheGetMulti (fun k => if k = "wp_post_1" then some "P1" else none)
        true (fun i => "wp_post_" ++ toString i) [1, 2, 1]).1[0]?
        = some (some "P1"))
    ∧ ∀ y ∈ getPostsMissedIds [1, 2, 1]
        (cacheGetMulti (fun k => if k = "wp_post_1" then some "P1" else none)
          true (fun i => "wp_post_" ++ toString i) [1, 2, 1]).2,
      (fun k => if k = "wp_post_1" then some "P1" else none)
        ((fun i => "wp_post_" ++ toString i) y) = none :=
  ⟨⟨⟨by decide, by decide⟩,
    (cacheGetMulti_spec (fun k => if k = "wp_post_1" then some "P1" else none)
      (fun i => "wp_post_" ++ toString i) [1, 2, 1]).2.1 0 1 "P1"
      (by decide) (by decide)⟩,
    (cacheGetMulti_spec (fun k => if k = "wp_post_1" then some "P1" else none)
      (fun i => "wp_post_" ++ toString i) [1, 2, 1]).2.2.2.2⟩

/-! ## Iterator protocol (src/iterator.go)

The iterators produced by `queryTerms` (src/term.go 288-303) and
`queryObjects` (part_006 835-850) close over a fixed id list and a
counter; `exit(err)` permanently replaces the `next` closure with one
that returns `err` forever.  The base64 cursor encoding is a
collaborator, passed as `encode`. -/

inductive IterErr where
  | done
  | other (msg : String)
  deriving DecidableEq, Repr

/-- Iterator state: the captured counter, the current cursor, and the
error installed by `exit` (none while the original closure is live). -/
structure IterSt where
  counter : Nat
  cursor : String
  override : Option IterErr
  deriving DecidableEq, Repr

/-- One `Next()` call: with an `exit`-installed error, return it and
leave the state alone; otherwise yield `ids[counter]`, refresh the
cursor, and advance — or `exit(Done)` when the ids are exhausted. -/
def iterNext (ids : List Int) (encode : Int → String) (s : IterSt) :
    (Int × Option IterErr) × IterSt :=
  match s.override with
  | some e => ((0, some e), s)
  | none =>
      if h : s.counter < ids.length then
        ((ids.get ⟨s.counter, h⟩, none),
         { s with counter := s.counter + 1,
                  cursor := encode (ids.get ⟨s.counter, h⟩) })
      else ((0, some IterErr.done), { s with override := some IterErr.done })

/-- `n` further `Next()` calls, keeping only the state. -/
def iterAdvance (ids : List Int) (encode : Int → String) :
    Nat → IterSt → IterSt
  | 0, s => s
  | n + 1, s => iterAdvance ids encode n (iterNext ids encode s).2

/-- The `Slice()` loop (src/iterator.go 33-46): `Done` breaks and
returns the collected ids with a nil error; any other error is returned
unchanged with a nil slice.  The Go loop's termination is data-driven,
so the model carries fuel; `iterSlice` passes `ids.length + 1`, proved
sufficient in `iterator_spec` (each successful `Next` increments the
counter, which is bounded by `ids.length`), so the fuel-out branch is
unreachable from the states the query functions create. -/
def iterSliceGo (ids : List Int) (encode : Int → String) :
    Nat → IterSt → (List Int × Option IterErr) × IterSt
  | 0, s => (([], some (IterErr.other "fuel")), s)
  | fuel + 1, s =>
      if (iterNext ids encode s).1.2 = some IterErr.done then
        (([], none), (iterNext ids encode s).2)
      else if (iterNext ids encode s).1.2 ≠ none then
        (([], (iterNext ids encode s).1.2), (iterNext ids encode s).2)
      else
        if (iterSliceGo ids encode fuel (iterNext ids encode s).2).1.2 = none then
          (((iterNext ids encode s).1.1 ::
              (iterSliceGo ids encode fuel (iterNext ids encode s).2).1.1, none),
           (iterSliceGo ids encode fuel (iterNext ids encode s).2).2)
        else
          (([], (iterSliceGo ids encode fuel (iterNext ids encode s).2).1.2),
           (iterSliceGo ids encode fuel (iterNext ids encode s).2).2)

def iterSlice (ids : List Int) (encode : Int → String) (s : IterSt) :
    (List Int × Option IterErr) × IterSt :=
  iterSliceGo ids encode (ids.length + 1) s

theorem iterNext_override (ids : List Int) (encode : Int → String)
    (c : Nat) (cur : String) (e : IterErr) :
    iterNext ids encode ⟨c, cur, some e⟩ = ((0, some e), ⟨c, cur, some e⟩) := rfl

theorem iterNext_run (ids : List Int) (encode : Int → String)
    (c : Nat) (cur : String) (h : c < ids.length) :
    iterNext ids encode ⟨c, cur, none⟩ =
      ((ids.get ⟨c, h⟩, none), ⟨c + 1, encode (ids.get ⟨c, h⟩), none⟩) := by
  show (if h : c < ids.length then _ else _) = _
  rw [dif_pos h]

theorem iterNext_exhaust (ids : List Int) (encode : Int → String)
    (c : Nat) (cur : String) (h : ¬ c < ids.length) :
    iterNext ids encode ⟨c, cur, none⟩ =
      ((0, some IterErr.done), ⟨c, cur, some IterErr.done⟩) := by
  show (if h : c < ids.length then _ else _) = _
  rw [dif_neg h]

theorem iterSliceGo_ok (ids : List Int) (encode : Int → String) :
    ∀ (fuel : Nat) (c : Nat) (cur : String),
      ids.length - c < fuel →
      (iterSliceGo ids encode fuel ⟨c, cur, none⟩).1 = (ids.drop c, none) := by
  intro fuel
  induction fuel with
  | zero =>
      intro c cur hf
      omega
  | succ fuel ih =>
      intro c cur hf
      rw [iterSliceGo]
      by_cases hlt : c < ids.length
      · rw [iterNext_run ids encode c cur hlt]
        rw [if_neg (by simp), if_neg (by simp)]
        have hrec := ih (c + 1) (encode (ids.get ⟨c, hlt⟩)) (by omega)
        rw [if_pos (by rw [hrec])]
        show (ids.get ⟨c, hlt⟩ ::
            (iterSliceGo ids encode fuel ⟨c + 1, _, none⟩).1.1, none) = _
        have h1 : (iterSliceGo ids encode fuel
            ⟨c + 1, encode (ids.get ⟨c, hlt⟩), none⟩).1.1 = ids.drop (c + 1) := by
          rw [show (iterSliceGo ids encode fuel
              ⟨c + 1, encode (ids.get ⟨c, hlt⟩), none⟩).1.1
              = (iterSliceGo ids encode fuel
                ⟨c + 1, encode (ids.get ⟨c, hlt⟩), none⟩).1.1 from rfl, hrec]
        rw [h1]
        rw [List.drop_eq_getElem_cons hlt]
        rfl
      · rw [iterNext_exhaust ids encode c cur hlt]
        rw [if_pos (by rfl)]
        rw [List.drop_eq_nil_of_le (Nat.le_of_not_lt hlt)]

/-- **C10.** For the iterators the query functions produce: once `Next`
has returned `Done`, every subsequent `Next` call also returns `Done`
(the `exit`-installed closure is permanent); `Slice` on a live iterator
returns exactly the remaining ids in iteration order with a nil error;
and `Slice` returns a non-`Done` error unchanged with a nil slice. -/
theorem iterator_spec (ids : List Int) (encode : Int → String) :
    (∀ s : IterSt, (iterNext ids encode s).1.2 = some IterErr.done →
      ∀ n : Nat,
        (iterNext ids encode
          (iterAdvance ids encode n (iterNext ids encode s).2)).1.2
          = some IterErr.done)
    ∧ (∀ s : IterSt, s.override = none →
        (iterSlice ids encode s).1 = (ids.drop s.counter, none))
    ∧ (∀ (s : IterSt) (m : String), s.override = some (IterErr.other m) →
        (iterSlice ids encode s).1 = ([], some (IterErr.other m))) := by
  have hB : ∀ s : IterSt, s.override = some IterErr.done →
      iterNext ids encode s = ((0, some IterErr.done), s) := by
    intro s h
    obtain ⟨c, cur, ov⟩ := s
    have h2 : ov = some IterErr.done := h
    rw [h2]
    exact iterNext_override ids encode c cur IterErr.done
  have hA : ∀ s : IterSt, (iterNext ids encode s).1.2 = some IterErr.done →
      (iterNext ids encode s).2.override = some IterErr.done := by
    intro s h
    obtain ⟨c, cur, ov⟩ := s
    cases ov with
    | some e =>
        have h2 : some e = some IterErr.done := h
        have h3 : e = IterErr.done := Option.some.inj h2
        rw [h3]
        rfl
    | none =>
        by_cases hlt : c < ids.length
        · rw [iterNext_run ids encode c cur hlt] at h
          cases h
        · rw [iterNext_exhaust ids encode c cur hlt]
  have hstay : ∀ (n : Nat) (s : IterSt), s.override = some IterErr.done →
      iterAdvance ids encode n s = s := by
    intro n
    induction n with
    | zero => intro s _; rfl
    | succ n ih =>
        intro s h
        show iterAdvance ids encode n (iterNext ids encode s).2 = s
        rw [hB s h]
        exact ih s h
  refine ⟨?_, ?_, ?_⟩
  · intro s h n
    have hov := hA s h
    rw [hstay n _ hov, hB _ hov]
  · intro s hov
    obtain ⟨c, cur, ov⟩ := s
    have h2 : ov = none := hov
    rw [h2]
    exact iterSliceGo_ok ids encode (ids.length + 1) c cur (by omega)
  · intro s m hov
    obtain ⟨c, cur, ov⟩ := s
    have h2 : ov = some (IterErr.other m) := hov
    rw [h2]
    show (iterSliceGo ids encode (ids.length + 1) ⟨c, cur, some (IterErr.other m)⟩).1 = _
    rw [iterSliceGo, iterNext_override]
    rw [if_neg (by simp), if_pos (by simp)]

/-- Witness for C10: slicing the two-element iterator from its initial
state yields both ids with a nil error, and a `Next` past the end
returns `Done` now and on the call after next. -/
theorem iterator_spec_witness :
    (((⟨0, "", none⟩ : IterSt).override = none)
      ∧ (iterNext [5, 7] (fun _ => "") ⟨2, "", none⟩).1.2 = some IterErr.done)
    ∧ (iterSlice [5, 7] (fun _ => "") ⟨0, "", none⟩).1
        = ([5, 7].drop (⟨0, "", none⟩ : IterSt).counter, none)
    ∧ (iterNext [5, 7] (fun _ => "")
        (iterAdvance [5, 7] (fun _ => "") 1
          (iterNext [5, 7] (fun _ => "") ⟨2, "", none⟩).2)).1.2
        = some IterErr.done :=
  ⟨⟨rfl, rfl⟩,
   (iterator_spec [5, 7] (fun _ => "")).2.1 ⟨0, "", none⟩ rfl,
   (iterator_spec [5, 7] (fun _ => "")).1 ⟨2, "", none⟩ rfl 1⟩

/-! ## Cursor query builders: `queryTerms` (src/term.go 141-267) and
`queryObjects` (src/unnamed/part_006 400-811)

The sqrl builder is modelled by an explicit query value: predicates are
recorded in the order the source adds them, `sqrl.Eq`/`sqrl.NotEq` maps
as column/value pair lists in written order, `inSubquery` as a
column/subquery/negation triple, and free-form `Where(sql, args...)` as
a raw predicate.  `base64.URLEncoding.DecodeString` is a collaborator,
passed as a partial decode function (`none` = decode error), as is
`GetCategoryIdBySlug` (`0` = unresolved slug, matching the source's
`if catId == 0 { continue }`). -/

/-- The table prefix comes from configuration; the model fixes the
conventional `wp_`. -/
def table (n : String) : String := "wp_" ++ n

/-- A bound SQL parameter. -/
inductive SVal where
  | i (n : Int)
  | s (v : String)
  deriving DecidableEq, Repr

/-- The value of one `sqrl.Eq`/`NotEq` column: scalar (`=`) or slice
(`IN`). -/
inductive EqVal where
  | one (v : SVal)
  | many (vs : List SVal)
  deriving DecidableEq, Repr

/-- A `Where` item inside a subquery: an `sqrl.Eq` map or an `sqrl.Or`
of `sqrl.Eq` maps (the meta search). -/
inductive SubWhere where
  | eqW (pairs : List (String × EqVal))
  | orW (alts : List (List (String × EqVal)))
  deriving DecidableEq, Repr

/-- A subquery as used by `inSubquery` (part_006 379-397). -/
structure SubQ where
  cols : List String
  fromT : String
  joins : List String
  distinct : Bool
  wheres : List SubWhere
  deriving DecidableEq, Repr

/-- A top-level predicate. -/
inductive Pred where
  | eqP (pairs : List (String × EqVal))
  | neqP (pairs : List (String × EqVal))
  | raw (sql : String) (args : List SVal)
  | inSub (column : String) (sub : SubQ) (neg : Bool)
  deriving DecidableEq, Repr

/-- The built query: columns, FROM, JOINs, WHERE items in insertion
order, ORDER BY items in insertion order, and LIMIT (`none` = no LIMIT
clause). -/
structure SqlQuery where
  cols : List String
  fromT : String
  joins : List String
  wheres : List Pred
  orderBys : List String
  limit : Option Nat
  deriving DecidableEq, Repr

/-- `TermQueryOptions` (src/term.go 43-73); `Taxonomy` is a string type
in the source. -/
structure TermQueryOptions where
  after : String := ""
  limit : Int := 0
  order : String := ""
  orderAscending : Bool := false
  id : Int := 0
  idIn : List Int := []
  idNotIn : List Int := []
  name : String := ""
  nameIn : List String := []
  nameNotIn : List String := []
  objectId : Int := 0
  objectIdIn : List Int := []
  objectIdNotIn : List Int := []
  parentId : Int := 0
  parentIdIn : List Int := []
  parentIdNotIn : List Int := []
  slug : String := ""
  slugIn : List String := []
  slugNotIn : List String := []
  taxonomy : String := ""
  taxonomyIn : List String := []
  taxonomyNotIn : List String := []
  deriving DecidableEq, Repr

/-- The cursor block of `queryTerms` (src/term.go 226-244): a nonempty
`After` that decodes adds one strict-inequality raw predicate on the
ordering column, direction by `OrderAscending`; decode failure adds
nothing. -/
def termCursorPred (dec : String → Option String) (o : TermQueryOptions) :
    List Pred :=
  if o.after ≠ "" then
    match dec o.after with
    | some b =>
        [Pred.raw ((if o.order = "" then "t.term_id" else o.order)
          ++ (if o.orderAscending then ">" else "<") ++ " ?") [SVal.s b]]
    | none => []
  else []

/-- Everything `queryTerms` (src/term.go 141-263) builds apart from the
cursor predicate, which the source appends after all other axes. -/
def queryTermsBase (o : TermQueryOptions) : SqlQuery :=
  let order := if o.order = "" then "t.term_id ASC"
    else o.order ++ (if o.orderAscending then " ASC" else " DESC")
  let nameW : List Pred :=
    if o.name ≠ "" then [Pred.eqP [("t.name", EqVal.one (SVal.s o.name))]]
    else if o.nameIn ≠ [] then
      [Pred.eqP [("t.name", EqVal.many (o.nameIn.map SVal.s))]]
    else if o.nameNotIn ≠ [] then
      [Pred.neqP [("t.name", EqVal.many (o.nameNotIn.map SVal.s))]]
    else []
  let objPair : List Pred × Bool :=
    if 0 < o.objectId then
      ([Pred.eqP [("tr.object_id", EqVal.one (SVal.i o.objectId))]], true)
    else if o.objectIdIn ≠ [] then
      ([Pred.eqP [("tr.object_id", EqVal.many (o.objectIdIn.map SVal.i))]], true)
    else if o.objectIdNotIn ≠ [] then
      ([Pred.neqP [("tr.object_id", EqVal.many (o.objectIdNotIn.map SVal.i))]], true)
    else ([], false)
  let parentPair : List Pred × Bool :=
    if 0 < o.parentId then
      ([Pred.eqP [("tt.parent", EqVal.one (SVal.i o.parentId))]], true)
    else if o.parentIdIn ≠ [] then
      ([Pred.eqP [("tt.parent", EqVal.many (o.parentIdIn.map SVal.i))]], true)
    else if o.parentIdNotIn ≠ [] then
      ([Pred.neqP [("tt.parent", EqVal.many (o.parentIdNotIn.map SVal.i))]], true)
    else ([], false)
  let slugW : List Pred :=
    if o.slug ≠ "" then [Pred.eqP [("t.slug", EqVal.one (SVal.s o.slug))]]
    else if o.slugIn ≠ [] then
      [Pred.eqP [("t.slug", EqVal.many (o.slugIn.map SVal.s))]]
    else if o.slugNotIn ≠ [] then
      [Pred.neqP [("t.slug", EqVal.many (o.slugNotIn.map SVal.s))]]
    else []
  let taxPair : List Pred × Bool :=
    if o.taxonomy ≠ "" then
      ([Pred.eqP [("tt.taxonomy", EqVal.one (SVal.s o.taxonomy))]], true)
    else if o.taxonomyIn ≠ [] then
      ([Pred.eqP [("tt.taxonomy", EqVal.many (o.taxonomyIn.map SVal.s))]], true)
    else if o.taxonomyNotIn ≠ [] then
      ([Pred.neqP [("tt.taxonomy", EqVal.many (o.taxonomyNotIn.map SVal.s))]], true)
    else ([], false)
  let idW : List Pred :=
    if 0 < o.id then [Pred.eqP [("t.term_id", EqVal.one (SVal.i o.id))]]
    else if o.idIn ≠ [] then
      [Pred.eqP [("t.term_id", EqVal.many (o.idIn.map SVal.i))]]
    else if o.idNotIn ≠ [] then
      [Pred.neqP [("t.term_id", EqVal.many (o.idNotIn.map SVal.i))]]
    else []
  let requireRelationships := objPair.2
  let requireTaxonomy := parentPair.2 || taxPair.2
  { cols := ["t.term_id"],
    fromT := table "terms" ++ " AS t",
    joins :=
      (if requireTaxonomy || requireRelationships then
        [table "term_taxonomy" ++ " AS tt ON tt.term_id = t.term_id"] else [])
      ++ (if requireRelationships then
        [table "term_relationships"
          ++ " AS tr ON tr.term_taxonomy_id = tt.term_taxonomy_id"] else []),
    wheres := nameW ++ objPair.1 ++ parentPair.1 ++ slugW ++ taxPair.1 ++ idW,
    orderBys := [order, order],
    limit :=
      if o.limit = 0 then some 10
      else if 0 ≤ o.limit then some o.limit.toNat
      else none }

/-- `queryTerms`'s built query: the base plus the trailing cursor
predicate. -/
def queryTermsQ (dec : String → Option String) (o : TermQueryOptions) :
    SqlQuery :=
  { queryTermsBase o with
    wheres := (queryTermsBase o).wheres ++ termCursorPred dec o }

/-- `ObjectQueryOptions` (part_006 160-230); `PostType`, `PostStatus`
and `Taxonomy` are string types, dates are ints, `AfterDate` is a
`*time.Time` whose driver-level rendering the model keeps abstract as a
string. -/
structure ObjectQueryOptions where
  after : String := ""
  limit : Int := 0
  order : String := ""
  orderAscending : Bool := false
  postType : String := ""
  postStatus : String := ""
  author : Int := 0
  authorIn : List Int := []
  authorNotIn : List Int := []
  authorName : String := ""
  authorNameIn : List String := []
  authorNameNotIn : List String := []
  category : Int := 0
  categoryAnd : List Int := []
  categoryIn : List Int := []
  categoryNotIn : List Int := []
  categoryName : String := ""
  categoryNameAnd : List String := []
  categoryNameIn : List String := []
  categoryNameNotIn : List String := []
  menuId : Int := 0
  menuIdAnd : List Int := []
  menuIdIn : List Int := []
  menuIdNotIn : List Int := []
  menuName : String := ""
  menuNameAnd : List String := []
  menuNameIn : List String := []
  menuNameNotIn : List String := []
  meta : String := ""
  metaAnd : List String := []
  metaIn : List String := []
  metaNotIn : List String := []
  name : String := ""
  nameIn : List String := []
  nameNotIn : List String := []
  parent : Int := 0
  parentIn : List Int := []
  parentNotIn : List Int := []
  post : Int := 0
  postIn : List Int := []
  postNotIn : List Int := []
  tagId : Int := 0
  tagIdAnd : List Int := []
  tagIdIn : List Int := []
  tagIdNotIn : List Int := []
  tagName : String := ""
  tagNameAnd : List String := []
  tagNameIn : List String := []
  tagNameNotIn : List String := []
  query : String := ""
  day : Int := 0
  month : Int := 0
  year : Int := 0
  afterDate : Option String := none
  deriving DecidableEq, Repr

/-- Failure modes of `queryObjects`'s construction phase: the
`GetChildrenIds` loop not terminating, or the `cat[:1]` panic on an
empty category-name chunk. -/
inductive BuildErr where
  | closureDiverge
  | panicEmptyChunk
  deriving DecidableEq, Repr

/-- `termsSubQuery` (part_006 379-385): the relationships/taxonomy/terms
join returning `object_id`. -/
def termsSubQuery : SubQ :=
  { cols := ["object_id"],
    fromT := table "term_relationships" ++ " AS tr",
    joins := [table "term_taxonomy"
        ++ " AS tt ON tr.term_taxonomy_id = tt.term_taxonomy_id",
      table "terms" ++ " AS t ON tt.term_id = t.term_id"],
    distinct := false,
    wheres := [] }

/-- A `termsSubQuery.Where(sqrl.Eq{...})` with one taxonomy/slug-or-id
condition, wrapped by `inSubquery` on `ID`. -/
def termsSubPred (pairs : List (String × EqVal)) (neg : Bool) : Pred :=
  Pred.inSub "ID" { termsSubQuery with wheres := [SubWhere.eqW pairs] } neg

/-- The category variant: taxonomy fixed to `category`, ids as an `IN`
list. -/
def catSubPred (ids : List Int) (neg : Bool) : Pred :=
  termsSubPred
    [("tt.taxonomy", EqVal.one (SVal.s "category")),
     ("t.term_id", EqVal.many (ids.map SVal.i))] neg

/-- `Category.GetChildrenIds` as called by `queryObjects`; `none`
models the loop never terminating. -/
def childClosure (store : List Term) (cid : Int) :
    Except BuildErr (List Int) :=
  match GetChildrenIds store cid with
  | none => .error .closureDiverge
  | some ids => .ok ids

/-- Separators of the `[,+~]` regexp used on `CategoryName`. -/
def isSep (ch : Char) : Bool := ch = ',' || ch = '+' || ch = '~'

/-- Split `CategoryName` at each separator, keeping the separator as the
first character of the following chunk (the source walks
`FindAllStringIndex` match positions; the first chunk has no leading
separator). -/
def splitChunks (s : String) : List String :=
  let st := s.toList.foldl
    (fun (st : List (List Char) × List Char) ch =>
      if isSep ch then (st.1 ++ [st.2], [ch]) else (st.1, st.2 ++ [ch]))
    ([], [])
  (st.1 ++ [st.2]).map (fun l => l.asString)

/-- `sortCategory` (part_006 470-492) over a chunk list: `+name` joins
the AND list, `~name` the NOT IN list, a bare or `,`-prefixed name the
IN list; an empty chunk makes `cat[:1]` panic (`none`). -/
def sortChunksLoop :
    List String → List String × List String × List String →
    Option (List String × List String × List String)
  | [], acc => some acc
  | c :: rest, (as_, is_, ns_) =>
    match c.toList with
    | [] => none
    | ch :: tl =>
      if ch = '+' then sortChunksLoop rest (as_ ++ [tl.asString], is_, ns_)
      else if ch = '~' then sortChunksLoop rest (as_, is_, ns_ ++ [tl.asString])
      else if ch = ',' then sortChunksLoop rest (as_, is_ ++ [tl.asString], ns_)
      else sortChunksLoop rest (as_, is_ ++ [c], ns_)

/-- The `CategoryName` preprocessing (part_006 494-500): split and sort
the name into the three name lists, extending any caller-supplied ones. -/
def sortNames (o : ObjectQueryOptions) :
    Option (List String × List String × List String) :=
  if o.categoryName ≠ "" then
    sortChunksLoop (splitChunks o.categoryName)
      (o.categoryNameAnd, o.categoryNameIn, o.categoryNameNotIn)
  else some (o.categoryNameAnd, o.categoryNameIn, o.categoryNameNotIn)

/-- Resolve category names to ids, dropping unresolved ones (the source
ignores the lookup error and skips `catId == 0`). -/
def resolveNames (catIdBySlug : String → Int) (ns : List String) :
    List Int :=
  ns.filterMap (fun n =>
    let i := catIdBySlug n
    if i = 0 then none else some i)

/-- The category axis (part_006 502-566): a positive `Category` takes
priority, then the AND list (one subquery predicate per id, each over
the id's closure), then the IN list (ids plus closures merged into one
`IN`), then the NOT IN list likewise negated. -/
def categoryAxis (store : List Term)
    (category : Int) (catAnd catIn catNotIn : List Int) :
    Except BuildErr (List Pred) :=
  if 0 < category then do
    let ids ← childClosure store category
    pure [catSubPred ids false]
  else if catAnd ≠ [] then
    catAnd.mapM (fun cid => do
      let ids ← childClosure store cid
      pure (catSubPred ids false))
  else if catIn ≠ [] then do
    let idss ← catIn.mapM (fun cid => do
      let ids ← childClosure store cid
      pure (cid :: ids))
    pure [catSubPred idss.flatten false]
  else if catNotIn ≠ [] then do
    let idss ← catNotIn.mapM (fun cid => do
      let ids ← childClosure store cid
      pure (cid :: ids))
    pure [catSubPred idss.flatten true]
  else pure []

/-- One meta condition (part_006 352-366): `key=value` splits at the
first `=` into a `meta_value`/`meta_key` pair map, a bare string is a
`meta_key` condition. -/
def metaCond (m : String) : List (String × EqVal) :=
  let cs := m.toList
  let pre := cs.takeWhile (fun ch => ch ≠ '=')
  if pre.length = cs.length then [("meta_key", EqVal.one (SVal.s m))]
  else
    [("meta_value", EqVal.one (SVal.s ((cs.drop (pre.length + 1)).asString))),
     ("meta_key", EqVal.one (SVal.s pre.asString))]

/-- `searchMeta` (part_006 340-377): a leading `is not in` marker turns
the postmeta subquery into a `NOT IN`; the conditions are OR-ed inside
one distinct `post_id` subquery on the postmeta table. -/
def searchMeta (metas : List String) : List Pred :=
  match metas with
  | [] => []
  | m0 :: rest =>
    let mk := fun (neg : Bool) (ms : List String) =>
      [Pred.inSub "ID"
        { cols := ["post_id"], fromT := table "postmeta", joins := [],
          distinct := true, wheres := [SubWhere.orW (ms.map metaCond)] } neg]
    if m0 = "is not in" then
      if rest = [] then [] else mk true rest
    else mk false (m0 :: rest)

/-- Letters are what the `[^a-zA-Z]` split regexp keeps. -/
def isAsciiLetter (ch : Char) : Bool :=
  ('a' ≤ ch && ch ≤ 'z') || ('A' ≤ ch && ch ≤ 'Z')

/-- `regexp.MustCompile("[^a-zA-Z]").Split(q, -1)`: cut at every
non-letter character, keeping empty fields. -/
def splitNonLetter (s : String) : List String :=
  let st := s.toList.foldl
    (fun (st : List (List Char) × List Char) ch =>
      if isAsciiLetter ch then (st.1, st.2 ++ [ch])
      else (st.1 ++ [st.2], []))
    ([], [])
  (st.1 ++ [st.2]).map (fun l => l.asString)

/-- The unit the free-text loop appends per surviving token
(part_006 740-752), trailing `OR` included. -/
def likeUnit : String :=
  "post_name LIKE ? OR post_title LIKE ? OR post_content LIKE ? OR "

/-- The three `%word%` arguments one surviving token contributes. -/
def tripleArg (w : String) : List SVal :=
  [SVal.s ("%" ++ w ++ "%"), SVal.s ("%" ++ w ++ "%"),
   SVal.s ("%" ++ w ++ "%")]

/-- One iteration of the free-text loop: a token longer than two
characters appends `likeUnit` to the predicate and the `%token%`
argument three times. -/
def freeTextStep (st : String × List SVal) (w : String) :
    String × List SVal :=
  if 2 < w.length then (st.1 ++ likeUnit, st.2 ++ tripleArg w) else st

/-- The free-text fold over all split tokens. -/
def freeTextFold (words : List String) : String × List SVal :=
  words.foldl freeTextStep ("", [])

/-- The free-text axis (part_006 737-759): split the query on
non-letters, fold, and if anything survived wrap
`pred[:len(pred)-4]` — the last ` OR ` stripped — in parentheses.
The strings involved are ASCII, so Go's byte slicing is character
slicing. -/
def queryW (q : String) : List Pred :=
  if q ≠ "" then
    if (freeTextFold (splitNonLetter q)).1 ≠ "" then
      [Pred.raw
        ("(" ++ (((freeTextFold (splitNonLetter q)).1.toList.take
          ((freeTextFold (splitNonLetter q)).1.toList.length - 4)).asString)
          ++ ")")
        (freeTextFold (splitNonLetter q)).2]
    else []
  else []

/-- The ordering column (part_006 401-409): default `post_date`, any
user value stripped of backquotes, then wrapped in backquotes. -/
def orderedCol (o : ObjectQueryOptions) : String :=
  "\x60" ++ (if o.order = "" then "post_date"
    else (o.order.toList.filter (fun ch => ch ≠ '\x60')).asString) ++ "\x60"

/-- The cursor block of `queryObjects` (part_006 775-790), over the
backquoted ordering column. -/
def objCursorPred (dec : String → Option String) (o : ObjectQueryOptions) :
    List Pred :=
  if o.after ≠ "" then
    match dec o.after with
    | some b =>
        [Pred.raw (orderedCol o
          ++ (if o.orderAscending then ">" else "<") ++ " ?") [SVal.s b]]
    | none => []
  else []

/-- The author-name subquery on the users table. -/
def userSubPred (v : EqVal) (neg : Bool) : Pred :=
  Pred.inSub "post_author"
    { cols := ["ID"], fromT := table "users", joins := [], distinct := false,
      wheres := [SubWhere.eqW [("user_nicename", v)]] } neg

/-- nav_menu subquery predicates by term id and by slug. -/
def navSubId (v : EqVal) (neg : Bool) : Pred :=
  termsSubPred [("tt.taxonomy", EqVal.one (SVal.s "nav_menu")),
    ("t.term_id", v)] neg

def navSubSlug (v : EqVal) (neg : Bool) : Pred :=
  termsSubPred [("tt.taxonomy", EqVal.one (SVal.s "nav_menu")),
    ("t.slug", v)] neg

/-- post_tag subquery predicates by term id and by slug. -/
def tagSubId (v : EqVal) (neg : Bool) : Pred :=
  termsSubPred [("tt.taxonomy", EqVal.one (SVal.s "post_tag")),
    ("t.term_id", v)] neg

def tagSubSlug (v : EqVal) (neg : Bool) : Pred :=
  termsSubPred [("tt.taxonomy", EqVal.one (SVal.s "post_tag")),
    ("t.slug", v)] neg

/-- Predicates added before the category axis (part_006 417-453):
post type, post status, author id, author name. -/
def objW1 (o : ObjectQueryOptions) : List Pred :=
  (if o.postType ≠ "" then
    [Pred.eqP [("post_type", EqVal.one (SVal.s o.postType))]] else [])
  ++ (if o.postStatus ≠ "" then
    [Pred.eqP [("post_status", EqVal.one (SVal.s o.postStatus))]] else [])
  ++ (if 0 < o.author then
      [Pred.eqP [("post_author", EqVal.one (SVal.i o.author))]]
    else if o.authorIn ≠ [] then
      [Pred.eqP [("post_author", EqVal.many (o.authorIn.map SVal.i))]]
    else if o.authorNotIn ≠ [] then
      [Pred.neqP [("post_author", EqVal.many (o.authorNotIn.map SVal.i))]]
    else [])
  ++ (if o.authorName ≠ "" then
      [userSubPred (EqVal.one (SVal.s o.authorName)) false]
    else if o.authorNameIn ≠ [] then
      [userSubPred (EqVal.many (o.authorNameIn.map SVal.s)) false]
    else if o.authorNameNotIn ≠ [] then
      [userSubPred (EqVal.many (o.authorNameNotIn.map SVal.s)) true]
    else [])

/-- The meta axis dispatch (part_006 647-657). -/
def metaAxis (o : ObjectQueryOptions) : List Pred :=
  if o.meta ≠ "" then searchMeta [o.meta]
  else if o.metaAnd ≠ [] then o.metaAnd.flatMap (fun m => searchMeta [m])
  else if o.metaIn ≠ [] then searchMeta o.metaIn
  else if o.metaNotIn ≠ [] then searchMeta ("is not in" :: o.metaNotIn)
  else []

/-- Predicates between the category axis and the free-text clause
(part_006 569-739): menus, meta, name, parent, post id, tags. -/
def objW2a (o : ObjectQueryOptions) : List Pred :=
  (if 0 < o.menuId then [navSubId (EqVal.one (SVal.i o.menuId)) false]
    else if o.menuIdAnd ≠ [] then
      o.menuIdAnd.map (fun m => navSubId (EqVal.one (SVal.i m)) false)
    else if o.menuIdIn ≠ [] then
      [navSubId (EqVal.many (o.menuIdIn.map SVal.i)) false]
    else if o.menuIdNotIn ≠ [] then
      [navSubId (EqVal.many (o.menuIdNotIn.map SVal.i)) true]
    else [])
  ++ (if o.menuName ≠ "" then
      [navSubSlug (EqVal.one (SVal.s o.menuName)) false]
    else if o.menuNameIn ≠ [] then
      [navSubSlug (EqVal.many (o.menuNameIn.map SVal.s)) false]
    else if o.menuNameNotIn ≠ [] then
      [navSubSlug (EqVal.many (o.menuNameNotIn.map SVal.s)) true]
    else [])
  ++ metaAxis o
  ++ (if o.name ≠ "" then
      [Pred.eqP [("post_name", EqVal.one (SVal.s o.name))]]
    else if o.nameIn ≠ [] then
      [Pred.eqP [("post_name", EqVal.many (o.nameIn.map SVal.s))]]
    else if o.nameNotIn ≠ [] then
      [Pred.neqP [("post_name", EqVal.many (o.nameNotIn.map SVal.s))]]
    else [])
  ++ (if 0 < o.parent then
      [Pred.eqP [("post_parent", EqVal.one (SVal.i o.parent))]]
    else if o.parentIn ≠ [] then
      [Pred.eqP [("post_parent", EqVal.many (o.parentIn.map SVal.i))]]
    else if o.parentNotIn ≠ [] then
      [Pred.neqP [("post_parent", EqVal.many (o.parentNotIn.map SVal.i))]]
    else [])
  ++ (if 0 < o.post then [Pred.eqP [("ID", EqVal.one (SVal.i o.post))]]
    else if o.postIn ≠ [] then
      [Pred.eqP [("ID", EqVal.many (o.postIn.map SVal.i))]]
    else if o.postNotIn ≠ [] then
      [Pred.neqP [("ID", EqVal.many (o.postNotIn.map SVal.i))]]
    else [])
  ++ (if 0 < o.tagId then [tagSubId (EqVal.one (SVal.i o.tagId)) false]
    else if o.tagIdAnd ≠ [] then
      o.tagIdAnd.map (fun t => tagSubId (EqVal.one (SVal.i t)) false)
    else if o.tagIdIn ≠ [] then
      [tagSubId (EqVal.many (o.tagIdIn.map SVal.i)) false]
    else if o.tagIdNotIn ≠ [] then
      [tagSubId (EqVal.many (o.tagIdNotIn.map SVal.i)) true]
    else [])
  ++ (if o.tagName ≠ "" then
      [tagSubSlug (EqVal.one (SVal.s o.tagName)) false]
    else if o.tagNameAnd ≠ [] then
      o.tagNameAnd.map (fun t => tagSubSlug (EqVal.one (SVal.s t)) false)
    else if o.tagNameIn ≠ [] then
      [tagSubSlug (EqVal.many (o.tagNameIn.map SVal.s)) false]
    else if o.tagNameNotIn ≠ [] then
      [tagSubSlug (EqVal.many (o.tagNameNotIn.map SVal.s)) true]
    else [])

/-- Predicates after the free-text clause (part_006 761-773): date
parts and the after-date bound. -/
def objW2b (o : ObjectQueryOptions) : List Pred :=
  (if 0 < o.day then
    [Pred.eqP [("DAYOFMONTH(post_date)", EqVal.one (SVal.i o.day))]] else [])
  ++ (if 0 < o.month then
    [Pred.eqP [("MONTH(post_date)", EqVal.one (SVal.i o.month))]] else [])
  ++ (if 0 < o.year then
    [Pred.eqP [("YEAR(post_date)", EqVal.one (SVal.i o.year))]] else [])
  ++ (match o.afterDate with
    | some d => [Pred.raw "post_date > ?" [SVal.s d]]
    | none => [])

/-- The category predicates of `queryObjects` (part_006 455-566):
category names are sorted into the three name lists, resolved to ids,
and the winning axis expanded through `GetChildrenIds`. -/
def catWOf (cbs : String → Int) (store : List Term)
    (o : ObjectQueryOptions) : Except BuildErr (List Pred) :=
  match sortNames o with
  | none => .error .panicEmptyChunk
  | some (cna, cni, cnn) =>
    let cats : List Int × List Int × List Int :=
      if cna ≠ [] then
        (o.categoryAnd ++ resolveNames cbs cna, o.categoryIn, o.categoryNotIn)
      else if cni ≠ [] then
        (o.categoryAnd, o.categoryIn ++ resolveNames cbs cni, o.categoryNotIn)
      else if cnn ≠ [] then
        (o.categoryAnd, o.categoryIn, o.categoryNotIn ++ resolveNames cbs cnn)
      else (o.categoryAnd, o.categoryIn, o.categoryNotIn)
    categoryAxis store o.category cats.1 cats.2.1 cats.2.2

/-- Everything `queryObjects` (part_006 400-811) builds apart from the
cursor predicate, the predicate lists concatenated in source order. -/
def queryObjectsBase (cbs : String → Int) (store : List Term)
    (o : ObjectQueryOptions) : Except BuildErr SqlQuery :=
  (catWOf cbs store o).map (fun catW =>
    { cols := ["ID", orderedCol o],
      fromT := table "posts",
      joins := [],
      wheres :=
        objW1 o ++ catW ++ objW2a o ++ queryW o.query ++ objW2b o,
      orderBys :=
        [orderedCol o ++ (if o.orderAscending then " ASC" else " DESC")],
      limit :=
        if o.limit = 0 then some 10
        else if 0 < o.limit then some o.limit.toNat
        else none })

/-- `queryObjects`'s built query: the base plus the trailing cursor
predicate. -/
def queryObjectsQ (dec : String → Option String) (cbs : String → Int)
    (store : List Term) (o : ObjectQueryOptions) :
    Except BuildErr SqlQuery :=
  (queryObjectsBase cbs store o).map
    (fun base => { base with wheres := base.wheres ++ objCursorPred dec o })

theorem queryObjectsQ_ok_shape (dec : String → Option String)
    (cbs : String → Int) (store : List Term) (o : ObjectQueryOptions)
    (q : SqlQuery) (h : queryObjectsQ dec cbs store o = .ok q) :
    q =
      { cols := ["ID", orderedCol o],
        fromT := table "posts",
        joins := [],
        wheres :=
          (objW1 o ++ (catWOf cbs store o).toOption.getD [] ++ objW2a o
            ++ queryW o.query ++ objW2b o) ++ objCursorPred dec o,
        orderBys :=
          [orderedCol o ++ (if o.orderAscending then " ASC" else " DESC")],
        limit :=
          if o.limit = 0 then some 10
          else if 0 < o.limit then some o.limit.toNat
          else none } := by
  unfold queryObjectsQ queryObjectsBase at h
  cases hc : catWOf cbs store o with
  | error e =>
      rw [hc] at h
      exact absurd h (by simp [Except.map])
  | ok catW =>
      rw [hc] at h
      have h2 : (Except.ok
          { cols := ["ID", orderedCol o],
            fromT := table "posts",
            joins := [],
            wheres :=
              (objW1 o ++ catW ++ objW2a o ++ queryW o.query ++ objW2b o)
                ++ objCursorPred dec o,
            orderBys :=
              [orderedCol o ++ (if o.orderAscending then " ASC" else " DESC")],
            limit :=
              if o.limit = 0 then some 10
              else if 0 < o.limit then some o.limit.toNat
              else none } : Except BuildErr SqlQuery) = .ok q := h
      rw [← Except.ok.inj h2]
      rfl

/-- C6: cursor handling in `queryTerms` and `queryObjects`: a cursor
that fails to base64-decode is silently ignored — the built query is
the one built with no cursor at all; a cursor that decodes to `b` adds
one raw strict-inequality predicate on the ordering column (the `>`
direction exactly when `OrderAscending`) with `b` as its single
argument. -/
theorem cursor_spec (dec : String → Option String) (cbs : String → Int)
    (store : List Term) :
    (∀ o : TermQueryOptions, dec o.after = none →
      queryTermsQ dec o = queryTermsQ dec { o with after := "" })
    ∧ (∀ (o : TermQueryOptions) (b : String),
      o.after ≠ "" → dec o.after = some b →
      Pred.raw ((if o.order = "" then "t.term_id" else o.order)
          ++ (if o.orderAscending then ">" else "<") ++ " ?") [SVal.s b]
        ∈ (queryTermsQ dec o).wheres)
    ∧ (∀ o : ObjectQueryOptions, dec o.after = none →
      queryObjectsQ dec cbs store o
        = queryObjectsQ dec cbs store { o with after := "" })
    ∧ (∀ (o : ObjectQueryOptions) (b : String) (q : SqlQuery),
      o.after ≠ "" → dec o.after = some b →
      queryObjectsQ dec cbs store o = .ok q →
      Pred.raw (orderedCol o ++ (if o.orderAscending then ">" else "<")
          ++ " ?") [SVal.s b] ∈ q.wheres) := by
  refine ⟨fun o hdec => ?_, fun o b ha hdec => ?_, fun o hdec => ?_,
    fun o b q ha hdec hok => ?_⟩
  · have h1 : termCursorPred dec o = [] := by
      unfold termCursorPred
      by_cases hae : o.after = ""
      · simp [hae]
      · rw [if_pos hae, hdec]
    have h2 : termCursorPred dec { o with after := "" } = [] := rfl
    have hb : queryTermsBase { o with after := "" } = queryTermsBase o := rfl
    unfold queryTermsQ
    rw [hb, h1, h2]
  · have h1 : termCursorPred dec o
        = [Pred.raw ((if o.order = "" then "t.term_id" else o.order)
          ++ (if o.orderAscending then ">" else "<") ++ " ?") [SVal.s b]] := by
      unfold termCursorPred
      rw [if_pos ha, hdec]
    show _ ∈ (queryTermsBase o).wheres ++ termCursorPred dec o
    rw [h1]
    exact List.mem_append_right _ (List.mem_singleton.mpr rfl)
  · have h1 : objCursorPred dec o = [] := by
      unfold objCursorPred
      by_cases hae : o.after = ""
      · simp [hae]
      · rw [if_pos hae, hdec]
    have h2 : objCursorPred dec { o with after := "" } = [] := rfl
    have hb : queryObjectsBase cbs store { o with after := "" }
        = queryObjectsBase cbs store o := rfl
    unfold queryObjectsQ
    rw [hb, h1, h2]
  · have h1 : objCursorPred dec o
        = [Pred.raw (orderedCol o ++ (if o.orderAscending then ">" else "<")
          ++ " ?") [SVal.s b]] := by
      unfold objCursorPred
      rw [if_pos ha, hdec]
    rw [queryObjectsQ_ok_shape dec cbs store o q hok]
    show _ ∈ (objW1 o ++ (catWOf cbs store o).toOption.getD [] ++ objW2a o
      ++ queryW o.query ++ objW2b o) ++ objCursorPred dec o
    rw [h1]
    exact List.mem_append_right _ (List.mem_singleton.mpr rfl)

/-- Collaborators for concrete evaluations: a decoder recognising only
the cursor `cur`, and a slug resolver that resolves nothing. -/
def decW : String → Option String :=
  fun s => if s = "cur" then some "2020" else none

def cbsW : String → Int := fun _ => 0

/-- The query `queryObjects` builds for options that only carry the
cursor `cur` under `decW`. -/
def qObjW : SqlQuery :=
  { cols := ["ID", "\x60post_date\x60"], fromT := "wp_posts", joins := [],
    wheres := [Pred.raw "\x60post_date\x60< ?" [SVal.s "2020"]],
    orderBys := ["\x60post_date\x60 DESC"], limit := some 10 }

theorem cursor_spec_witness :
    (queryTermsQ decW { after := "zz" }
      = queryTermsQ decW { ({ after := "zz" } : TermQueryOptions) with after := "" })
    ∧ Pred.raw "t.term_id< ?" [SVal.s "2020"]
        ∈ (queryTermsQ decW { after := "cur" }).wheres
    ∧ (queryObjectsQ decW cbsW [] { after := "zz" }
      = queryObjectsQ decW cbsW []
          { ({ after := "zz" } : ObjectQueryOptions) with after := "" })
    ∧ Pred.raw "\x60post_date\x60< ?" [SVal.s "2020"] ∈ qObjW.wheres :=
  ⟨(cursor_spec decW cbsW []).1 { after := "zz" } (by decide),
   (cursor_spec decW cbsW []).2.1 { after := "cur" } "2020" (by decide)
     (by decide),
   (cursor_spec decW cbsW []).2.2.1 { after := "zz" } (by decide),
   (cursor_spec decW cbsW []).2.2.2 { after := "cur" } "2020" qObjW
     (by decide) (by decide) rfl⟩

/-- C7: `Limit` semantics in both builders: zero becomes a LIMIT of
ten, a positive value is used as given, a negative value leaves the
query without a LIMIT clause. -/
theorem limit_spec (dec : String → Option String) (cbs : String → Int)
    (store : List Term) :
    (∀ o : TermQueryOptions,
      (o.limit = 0 → (queryTermsQ dec o).limit = some 10)
      ∧ (0 < o.limit → (queryTermsQ dec o).limit = some o.limit.toNat)
      ∧ (o.limit < 0 → (queryTermsQ dec o).limit = none))
    ∧ (∀ (o : ObjectQueryOptions) (q : SqlQuery),
      queryObjectsQ dec cbs store o = .ok q →
      ((o.limit = 0 → q.limit = some 10)
      ∧ (0 < o.limit → q.limit = some o.limit.toNat)
      ∧ (o.limit < 0 → q.limit = none))) := by
  constructor
  · intro o
    have hl : (queryTermsQ dec o).limit
        = (if o.limit = 0 then some 10
          else if 0 ≤ o.limit then some o.limit.toNat else none) := rfl
    refine ⟨fun h => ?_, fun h => ?_, fun h => ?_⟩
    · rw [hl, if_pos h]
    · rw [hl, if_neg (by omega), if_pos (le_of_lt h)]
    · rw [hl, if_neg (by omega), if_neg (by omega)]
  · intro o q hok
    have hq := queryObjectsQ_ok_shape dec cbs store o q hok
    have hl : q.limit
        = (if o.limit = 0 then some 10
          else if 0 < o.limit then some o.limit.toNat else none) := by
      rw [hq]
    refine ⟨fun h => ?_, fun h => ?_, fun h => ?_⟩
    · rw [hl, if_pos h]
    · rw [hl, if_neg (by omega), if_pos h]
    · rw [hl, if_neg (by omega), if_neg (by omega)]

/-- The query `queryObjects` builds for options whose only setting is a
negative limit. -/
def qObjLimW : SqlQuery :=
  { cols := ["ID", "\x60post_date\x60"], fromT := "wp_posts", joins := [],
    wheres := [], orderBys := ["\x60post_date\x60 DESC"], limit := none }

theorem limit_spec_witness :
    ((queryTermsQ decW { limit := 0 }).limit = some 10)
    ∧ ((queryTermsQ decW { limit := 7 }).limit = some (Int.toNat 7))
    ∧ ((queryTermsQ decW { limit := -1 }).limit = none)
    ∧ (qObjLimW.limit = none) :=
  ⟨((limit_spec decW cbsW []).1 { limit := 0 }).1 rfl,
   ((limit_spec decW cbsW []).1 { limit := 7 }).2.1 (by decide),
   ((limit_spec decW cbsW []).1 { limit := -1 }).2.2 (by decide),
   ((limit_spec decW cbsW []).2 { limit := -1 } qObjLimW rfl).2.2
     (by decide)⟩

/-! ### The free-text clause (C8) -/

/-- One disjunct group of the free-text clause, without the trailing
` OR ` that the loop appends and the final slicing strips. -/
def likeCore : String :=
  "post_name LIKE ? OR post_title LIKE ? OR post_content LIKE ?"

/-- `n` copies of `likeCore` joined by ` OR `: the intended shape of
the stripped free-text clause body. -/
def orJoinChars : Nat → List Char
  | 0 => []
  | 1 => likeCore.toList
  | n + 2 => likeCore.toList ++ (" OR ").toList ++ orJoinChars (n + 1)

theorem toList_append_str (s t : String) :
    (s ++ t).toList = s.toList ++ t.toList := by
  simp [String.toList]

theorem freeTextFoldAux (words : List String) (p : String) (a : List SVal) :
    (words.foldl freeTextStep (p, a)).1.toList
        = p.toList ++ (List.replicate
          ((words.filter (fun w => 2 < w.length)).length)
          likeUnit.toList).flatten
    ∧ (words.foldl freeTextStep (p, a)).2
        = a ++ ((words.filter (fun w => 2 < w.length)).flatMap tripleArg) := by
  induction words generalizing p a with
  | nil => simp
  | cons w ws ih =>
      by_cases hw : 2 < w.length
      · have hstep : freeTextStep (p, a) w = (p ++ likeUnit, a ++ tripleArg w) := by
          unfold freeTextStep
          rw [if_pos hw]
        obtain ⟨ih1, ih2⟩ := ih (p ++ likeUnit) (a ++ tripleArg w)
        have hfil : (w :: ws).filter (fun w => 2 < w.length)
            = w :: ws.filter (fun w => 2 < w.length) := by
          simp [List.filter_cons, hw]
        constructor
        · rw [List.foldl_cons, hstep, ih1, hfil, List.length_cons,
            List.replicate_succ, List.flatten_cons, toList_append_str,
            List.append_assoc]
        · rw [List.foldl_cons, hstep, ih2, hfil, List.flatMap_cons,
            List.append_assoc]
      · have hstep : freeTextStep (p, a) w = (p, a) := by
          unfold freeTextStep
          rw [if_neg hw]
        obtain ⟨ih1, ih2⟩ := ih p a
        have hfil : (w :: ws).filter (fun w => 2 < w.length)
            = ws.filter (fun w => 2 < w.length) := by
          simp [List.filter_cons, hw]
        constructor
        · rw [List.foldl_cons, hstep, ih1, hfil]
        · rw [List.foldl_cons, hstep, ih2, hfil]

theorem freeTextFold_fst (words : List String) :
    (freeTextFold words).1.toList
      = (List.replicate ((words.filter (fun w => 2 < w.length)).length)
        likeUnit.toList).flatten := by
  simpa using (freeTextFoldAux words "" []).1

theorem freeTextFold_snd (words : List String) :
    (freeTextFold words).2
      = (words.filter (fun w => 2 < w.length)).flatMap tripleArg := by
  simpa using (freeTextFoldAux words "" []).2

theorem flatten_replicate_length (m : Nat) (l : List Char) :
    (List.replicate m l).flatten.length = m * l.length := by
  induction m with
  | zero => simp
  | succ k ih =>
      rw [List.replicate_succ, List.flatten_cons, List.length_append, ih,
        Nat.succ_mul]
      exact Nat.add_comm l.length (k * l.length)

theorem likeUnit_decomp : likeUnit.toList = likeCore.toList ++ (" OR ").toList := by
  decide

theorem flattenU_take (n : Nat) :
    (List.replicate (n + 1) likeUnit.toList).flatten.take ((n + 1) * 64 - 4)
      = orJoinChars (n + 1) := by
  induction n with
  | zero => decide
  | succ k ih =>
      have h64 : likeUnit.toList.length = 64 := rfl
      have h1 : (k + 1 + 1) * 64 - 4 = 64 + ((k + 1) * 64 - 4) := by omega
      rw [List.replicate_succ, List.flatten_cons, h1,
        List.take_append_eq_append_take,
        List.take_of_length_le (by rw [h64]; omega),
        show 64 + ((k + 1) * 64 - 4) - likeUnit.toList.length
          = (k + 1) * 64 - 4 from by rw [h64]; omega,
        ih, likeUnit_decomp, List.append_assoc]
      rfl

theorem queryW_eq_nil (q : String)
    (h : (splitNonLetter q).filter (fun w => 2 < w.length) = []) :
    queryW q = [] := by
  unfold queryW
  by_cases hq : q = ""
  · rw [if_neg (by simp [hq])]
  · rw [if_pos hq]
    have hf : (freeTextFold (splitNonLetter q)).1.toList = [] := by
      rw [freeTextFold_fst, h]
      rfl
    have hs : (freeTextFold (splitNonLetter q)).1 = "" :=
      String.toList_inj.mp (hf.trans rfl)
    rw [if_neg (not_not_intro hs)]

theorem queryW_clause (q : String)
    (h : (splitNonLetter q).filter (fun w => 2 < w.length) ≠ []) :
    queryW q = [Pred.raw
      ("(" ++ (((freeTextFold (splitNonLetter q)).1.toList.take
        ((freeTextFold (splitNonLetter q)).1.toList.length - 4)).asString)
        ++ ")")
      ((freeTextFold (splitNonLetter q)).2)] := by
  have hq : q ≠ "" := by
    intro he
    apply h
    rw [he]
    rfl
  have hne : (freeTextFold (splitNonLetter q)).1 ≠ "" := by
    intro he
    obtain ⟨t, ts, hts⟩ := List.exists_cons_of_ne_nil h
    have hf : (freeTextFold (splitNonLetter q)).1.toList = [] := by
      rw [he]
      rfl
    rw [freeTextFold_fst, hts, List.length_cons, List.replicate_succ,
      List.flatten_cons] at hf
    exact absurd (List.append_eq_nil.mp hf).1 (by decide)
  unfold queryW
  rw [if_pos hq, if_pos hne]

theorem clause_chars (q : String)
    (h : (splitNonLetter q).filter (fun w => 2 < w.length) ≠ []) :
    ("(" ++ (((freeTextFold (splitNonLetter q)).1.toList.take
      ((freeTextFold (splitNonLetter q)).1.toList.length - 4)).asString)
      ++ ")").toList
    = "(".toList
      ++ orJoinChars ((splitNonLetter q).filter (fun w => 2 < w.length)).length
      ++ ")".toList := by
  obtain ⟨t, ts, hts⟩ := List.exists_cons_of_ne_nil h
  have h64 : likeUnit.toList.length = 64 := rfl
  have htake : (freeTextFold (splitNonLetter q)).1.toList.take
      ((freeTextFold (splitNonLetter q)).1.toList.length - 4)
      = orJoinChars ((splitNonLetter q).filter (fun w => 2 < w.length)).length := by
    rw [freeTextFold_fst, hts, List.length_cons, flatten_replicate_length, h64]
    exact flattenU_take ts.length
  rw [toList_append_str, toList_append_str, List.toList_asString, htake]

/-- C8: the free-text axis of `queryObjects`: the query is split on
every non-letter character, tokens of length at most two are dropped,
and the surviving tokens produce a single parenthesised raw clause —
per token the three `LIKE ?` disjuncts on post_name, post_title and
post_content, all joined by `OR` — whose arguments are `%token%`
repeated three times per token in order; when no token survives, no
free-text predicate is added at all. -/
theorem freeText_spec (dec : String → Option String) (cbs : String → Int)
    (store : List Term) (o : ObjectQueryOptions) :
    ((splitNonLetter o.query).filter (fun w => 2 < w.length) = [] →
      ∀ q : SqlQuery, queryObjectsQ dec cbs store o = .ok q →
      q.wheres = (objW1 o ++ (catWOf cbs store o).toOption.getD []
        ++ objW2a o ++ objW2b o) ++ objCursorPred dec o)
    ∧ ((splitNonLetter o.query).filter (fun w => 2 < w.length) ≠ [] →
      ∀ q : SqlQuery, queryObjectsQ dec cbs store o = .ok q →
      Pred.raw
          ("(" ++ (((freeTextFold (splitNonLetter o.query)).1.toList.take
            ((freeTextFold (splitNonLetter o.query)).1.toList.length - 4)).asString)
            ++ ")")
          ((freeTextFold (splitNonLetter o.query)).2) ∈ q.wheres
      ∧ (freeTextFold (splitNonLetter o.query)).2
          = ((splitNonLetter o.query).filter (fun w => 2 < w.length)).flatMap
            tripleArg
      ∧ ("(" ++ (((freeTextFold (splitNonLetter o.query)).1.toList.take
          ((freeTextFold (splitNonLetter o.query)).1.toList.length - 4)).asString)
          ++ ")").toList
        = "(".toList
          ++ orJoinChars
            ((splitNonLetter o.query).filter (fun w => 2 < w.length)).length
          ++ ")".toList) := by
  constructor
  · intro h q hok
    have hw : q.wheres = (objW1 o ++ (catWOf cbs store o).toOption.getD []
        ++ objW2a o ++ queryW o.query ++ objW2b o) ++ objCursorPred dec o := by
      rw [queryObjectsQ_ok_shape dec cbs store o q hok]
    rw [hw, queryW_eq_nil o.query h]
    simp
  · intro h q hok
    refine ⟨?_, freeTextFold_snd _, clause_chars o.query h⟩
    have hw : q.wheres = (objW1 o ++ (catWOf cbs store o).toOption.getD []
        ++ objW2a o ++ queryW o.query ++ objW2b o) ++ objCursorPred dec o := by
      rw [queryObjectsQ_ok_shape dec cbs store o q hok]
    rw [hw, queryW_clause o.query h]
    simp

/-- The query built for the free-text search `hello world ab` (tokens
`hello` and `world` survive, `ab` is dropped). -/
def qObjTextW : SqlQuery :=
  { cols := ["ID", "\x60post_date\x60"], fromT := "wp_posts", joins := [],
    wheres := [Pred.raw
      "(post_name LIKE ? OR post_title LIKE ? OR post_content LIKE ? OR post_name LIKE ? OR post_title LIKE ? OR post_content LIKE ?)"
      [SVal.s "%hello%", SVal.s "%hello%", SVal.s "%hello%",
       SVal.s "%world%", SVal.s "%world%", SVal.s "%world%"]],
    orderBys := ["\x60post_date\x60 DESC"], limit := some 10 }

/-- The query built for the free-text search `ab c`, both of whose
tokens are too short to survive. -/
def qObjNoTextW : SqlQuery :=
  { cols := ["ID", "\x60post_date\x60"], fromT := "wp_posts", joins := [],
    wheres := [], orderBys := ["\x60post_date\x60 DESC"], limit := some 10 }

set_option maxRecDepth 16384 in
theorem freeText_spec_witness :
    (qObjNoTextW.wheres = [])
    ∧ (Pred.raw
        "(post_name LIKE ? OR post_title LIKE ? OR post_content LIKE ? OR post_name LIKE ? OR post_title LIKE ? OR post_content LIKE ?)"
        [SVal.s "%hello%", SVal.s "%hello%", SVal.s "%hello%",
         SVal.s "%world%", SVal.s "%world%", SVal.s "%world%"]
      ∈ qObjTextW.wheres)
    ∧ ((freeTextFold (splitNonLetter "hello world ab")).2
      = [SVal.s "%hello%", SVal.s "%hello%", SVal.s "%hello%",
         SVal.s "%world%", SVal.s "%world%", SVal.s "%world%"])
    ∧ (("(post_name LIKE ? OR post_title LIKE ? OR post_content LIKE ? OR post_name LIKE ? OR post_title LIKE ? OR post_content LIKE ?)").toList
      = "(".toList ++ orJoinChars 2 ++ ")".toList) :=
  ⟨(freeText_spec decW cbsW [] { query := "ab c" }).1 rfl qObjNoTextW rfl,
   ((freeText_spec decW cbsW [] { query := "hello world ab" }).2 (by decide)
     qObjTextW rfl).1,
   ((freeText_spec decW cbsW [] { query := "hello world ab" }).2 (by decide)
     qObjTextW rfl).2.1,
   ((freeText_spec decW cbsW [] { query := "hello world ab" }).2 (by decide)
     qObjTextW rfl).2.2⟩

end GoWp
